import Mathlib

/-!
Verification of the Highway fork-choice core: a shallow embedding of
tallies.rs (Tally, Tallies, find_decided, filter) and vote.rs
(Observation, Panorama, Vote::new) from the CasperLabs repository.

Block hashes and vote hashes are modelled as natural numbers (the code is
generic over a totally ordered hash type); u64 weights are modelled as Nat
(the code assumes weight arithmetic does not overflow).  BTreeMaps are
modelled as key-sorted association lists.  A Rust panic is modelled as the
outermost layer of an Option: a function that can panic returns an Option
whose value none means the call aborted.  Where a function itself returns
Option in Rust, the Rust level Option is the inner layer.

The State component (block and vote repository) is consumed by the core
but its source is not part of the embedded files; its contract is modelled
from the specification.
-/

namespace Highway

/-- Observed behavior of a validator: no vote yet, latest vote hash, or
observed equivocating (vote.rs, Observation). -/
inductive Observation where
  | None
  | Correct (hash : Nat)
  | Faulty
deriving DecidableEq

/-- Returns the vote hash if the observation is Correct (vote.rs,
Observation::correct). -/
def Observation.correct : Observation → Option Nat
  | .None => Option.none
  | .Faulty => Option.none
  | .Correct h => some h

/-- Whether the observation is Correct (vote.rs, Observation::is_correct). -/
def Observation.is_correct : Observation → Bool
  | .None => false
  | .Faulty => false
  | .Correct _ => true

/-- The observed behavior of all validators, indexed by validator index
(vote.rs, Panorama). -/
abbrev Panorama := List Observation

/-- Returns true if there is no correct observation yet (vote.rs,
Panorama::is_empty). -/
def Panorama.is_empty (p : Panorama) : Bool := !(p.any Observation.is_correct)

/-- A stored vote (vote.rs, Vote). -/
structure Vote where
  panorama : Panorama
  seq_number : Nat
  sender : Nat
  block : Nat
  skip_idx : List Nat
deriving DecidableEq

/-- A vote as received from the network (vertex.rs, WireVote; only the
fields consumed by Vote::new are modelled). -/
structure WireVote where
  hash : Nat
  panorama : Panorama
  seq_number : Nat
  sender : Nat
  values : Option (List Nat)
deriving DecidableEq

/-- A block: height and optional parent hash.  Modelled from the spec:
the State component is not among the embedded sources; the spec says each
block has a unique hash, a height, and a parent hash that is absent only
at height 0. -/
structure Block where
  height : Nat
  parent : Option Nat
deriving DecidableEq

/-- The vote and block repository.  Modelled from the spec: an append-only
repository of votes and blocks answering block(h), vote(h) and
find_ancestor(block, target_height). -/
structure State where
  blocks : List (Nat × Block)
  votes : List (Nat × Vote)
deriving DecidableEq

/-- Looks up a block by hash; none models the loud failure (panic) the
spec requires on an unknown hash. -/
def State.blockOf (s : State) (h : Nat) : Option Block :=
  (s.blocks.find? (fun e => decide (e.1 = h))).map (fun e => e.2)

/-- Looks up a vote by hash; none models the panic on an unknown hash. -/
def State.voteOf (s : State) (h : Nat) : Option Vote :=
  (s.votes.find? (fun e => decide (e.1 = h))).map (fun e => e.2)

/-- The parent hash of a known block, if any. -/
def State.parentOf (s : State) (h : Nat) : Option Nat :=
  match s.blockOf h with
  | Option.none => Option.none
  | some blk => blk.parent

/-- Fuel-indexed parent walk used by findAncestor.  The fuel bounds the
number of parent steps; running out of fuel or meeting an unknown hash or
a missing parent aborts (outer none), while a target height above the
block's height yields the ordinary absent answer (some none). -/
def faFuel (s : State) : Nat → Nat → Nat → Option (Option Nat)
  | Nat.succ f, bh, target =>
    match s.blockOf bh with
    | Option.none => Option.none
    | some blk =>
      if blk.height < target then some Option.none
      else if blk.height = target then some (some bh)
      else
        match blk.parent with
        | some p => faFuel s f p target
        | Option.none => Option.none
  | 0, bh, target =>
    match s.blockOf bh with
    | Option.none => Option.none
    | some blk =>
      if blk.height < target then some Option.none
      else if blk.height = target then some (some bh)
      else Option.none

/-- Modelled from the spec: find_ancestor(block_hash, target_height)
returns the hash of the ancestor of the block at the target height, and
an absent value when the target height exceeds the block's height; an
unknown hash fails loudly (outer none).  The block's own height bounds the
length of the parent walk. -/
def State.findAncestor (s : State) (bh target : Nat) : Option (Option Nat) :=
  match s.blockOf bh with
  | Option.none => Option.none
  | some blk => faFuel s blk.height bh target

/-- Adds a weight to the entry of a key in a key-sorted association list,
inserting the key if it is absent (the BTreeMap entry-or-default pattern
of Tally::add). -/
def addEntry : List (Nat × Nat) → Nat → Nat → List (Nat × Nat)
  | [], b, w => [(b, w)]
  | e :: r, b, w =>
    if b < e.1 then (b, w) :: e :: r
    else if b = e.1 then (e.1, e.2 + w) :: r
    else e :: addEntry r b w

/-- The weight stored for a key, zero when absent. -/
def vmGet (v : List (Nat × Nat)) (b : Nat) : Nat :=
  match v.find? (fun e => decide (e.1 = b)) with
  | some e => e.2
  | Option.none => 0

/-- Whether the keys of an association list are strictly increasing, as
iteration over a BTreeMap yields them. -/
def keySortedB {α : Type} : List (Nat × α) → Bool
  | [] => true
  | [_] => true
  | a :: b :: r => decide (a.1 < b.1) && keySortedB (b :: r)

/-- Sum of the weights of the entries satisfying a predicate. -/
def entrySum (p : Nat × Nat → Bool) (l : List (Nat × Nat)) : Nat :=
  ((l.filter p).map (fun e => e.2)).sum

/-- Sum of all weights of an association list. -/
def listWeight (l : List (Nat × Nat)) : Nat := (l.map (fun e => e.2)).sum

/-- The maximum of two (weight, hash) pairs in the lexicographic order
used by Rust's Ord for tuples: the second argument wins ties. -/
def lexMax (p q : Nat × Nat) : Nat × Nat :=
  if p.1 < q.1 ∨ (p.1 = q.1 ∧ p.2 ≤ q.2) then q else p

/-- A tally of votes at one height: the cached (weight, hash) maximum and
the per-block weights (tallies.rs, Tally). -/
structure Tally where
  max : Nat × Nat
  votes : List (Nat × Nat)
deriving DecidableEq

namespace Tally

/-- A new tally with a single entry (tallies.rs, Tally::new). -/
def new (bhash w : Nat) : Tally := { max := (w, bhash), votes := [(bhash, w)] }

/-- Adds a vote for a block, updating the cached maximum (tallies.rs,
Tally::add). -/
def add (t : Tally) (bhash weight : Nat) : Tally :=
  let w := vmGet t.votes bhash + weight
  { max := lexMax (w, bhash) t.max, votes := addEntry t.votes bhash weight }

/-- Repeated add over a list of entries (tallies.rs, the Extend impl). -/
def extend (t : Tally) (l : List (Nat × Nat)) : Tally :=
  l.foldl (fun t e => t.add e.1 e.2) t

/-- Creates a tally from a list of votes, none if the list is empty
(tallies.rs, Tally::try_from_iter). -/
def tryFromIter (l : List (Nat × Nat)) : Option Tally :=
  match l with
  | [] => Option.none
  | e :: r => some ((new e.1 e.2).extend r)

/-- Total weight of the votes in this tally (tallies.rs, Tally::weight). -/
def weight (t : Tally) : Nat := listWeight t.votes

/-- The maximum voting weight a single block received. -/
def max_w (t : Tally) : Nat := t.max.1

/-- The block hash that received the most votes, highest hash on ties. -/
def max_bhash (t : Tally) : Nat := t.max.2

/-- Maps each entry of a vote list to its block's parent, keeping the
weight; aborts (none) when a hash is unknown or a block has no parent,
as the unwraps in Tally::parents do. -/
def parentPairs (s : State) : List (Nat × Nat) → Option (List (Nat × Nat))
  | [] => some []
  | e :: r =>
    match s.blockOf e.1 with
    | Option.none => Option.none
    | some blk =>
      match blk.parent with
      | Option.none => Option.none
      | some p =>
        match parentPairs s r with
        | Option.none => Option.none
        | some r' => some ((p, e.2) :: r')

/-- The tally one level lower: a vote for a block counts as a vote for the
block's parent (tallies.rs, Tally::parents); none models the panics of
the unwraps there, including try_from_iter of an empty vote list. -/
def parents (t : Tally) (s : State) : Option Tally :=
  match parentPairs s t.votes with
  | Option.none => Option.none
  | some l => tryFromIter l

/-- The tally restricted to votes for descendants of bhash at the given
height (tallies.rs, Tally::filter); the outer none models a panic inside
find_ancestor, the inner none is the empty result. -/
def filterOpt (t : Tally) (height bhash : Nat) (s : State) : Option (Option Tally) :=
  if t.votes.all (fun e => (s.findAncestor e.1 height).isSome) then
    some (tryFromIter (t.votes.filter
      (fun e => decide (s.findAncestor e.1 height = some (some bhash)))))
  else Option.none

end Tally

/-- A list of tallies by block height (tallies.rs, Tallies), modelled as a
height-sorted association list. -/
abbrev Tallies := List (Nat × Tally)

namespace Tallies

/-- Adds an entry to the tally at the given height (tallies.rs,
Tallies::add): modify the tally if the height is present, insert a
singleton tally otherwise. -/
def add (ts : Tallies) (height bhash weight : Nat) : Tallies :=
  match ts with
  | [] => [(height, Tally.new bhash weight)]
  | e :: r =>
    if height < e.1 then (height, Tally.new bhash weight) :: e :: r
    else if height = e.1 then (e.1, e.2.add bhash weight) :: r
    else e :: add r height bhash weight

/-- Builds Tallies from (height, hash, weight) triples (tallies.rs, the
FromIterator impl). -/
def fromIter (l : List (Nat × Nat × Nat)) : Tallies :=
  l.foldl (fun ts e => add ts e.1 e.2.1 e.2.2) []

/-- The tally at a height, if present. -/
def getTally (ts : Tallies) (h : Nat) : Option Tally :=
  (ts.find? (fun e => decide (e.1 = h))).map (fun e => e.2)

/-- The greatest height present (keys().next_back()). -/
def maxKey (ts : Tallies) : Option Nat := ts.getLast?.map (fun e => e.1)

/-- The total weight over all heights. -/
def weightSum (ts : Tallies) : Nat := (ts.map (fun e => e.2.weight)).sum

/-- The tally examined at height n by the loop of find_decided: the
parents of the running tally, extended with the tally of the votes that
point directly to blocks at height n (the h_tally binding). -/
def hTallyAt (ts : Tallies) (n : Nat) (hp : Tally) : Tally :=
  match getTally ts n with
  | some t => hp.extend t.votes
  | Option.none => hp

/-- The descending loop of find_decided: with n+1 remaining iterations the
current height is n; prev is the running tally of all votes from heights
above the current height.  Outer none models a panic. -/
def fdLoop (s : State) (ts : Tallies) (total : Nat) : Nat → Tally → Option (Option (Nat × Nat))
  | 0, prev => some (some (0, prev.max_bhash))
  | Nat.succ n, prev =>
    match prev.parents s with
    | Option.none => Option.none
    | some hp =>
      if total < 2 * (hTallyAt ts n hp).max_w then
        match prev.filterOpt n (hTallyAt ts n hp).max_bhash s with
        | Option.none => Option.none
        | some (some filtered) => some (some (n + 1, filtered.max_bhash))
        | some Option.none => some (some (n, (hTallyAt ts n hp).max_bhash))
      else fdLoop s ts total n (hTallyAt ts n hp)

/-- Fork choice and finality (tallies.rs, Tallies::find_decided).  The
outer Option models panics; the inner Option is the Rust return value,
with some none for the empty-Tallies early return. -/
def findDecided (ts : Tallies) (s : State) : Option (Option (Nat × Nat)) :=
  match maxKey ts with
  | Option.none => some Option.none
  | some maxh =>
    match getTally ts maxh with
    | Option.none => Option.none
    | some prev => fdLoop s ts (weightSum ts) maxh prev

/-- Removes all votes for blocks that are not descendants of bhash
(tallies.rs, Tallies::filter): drop the heights at or below the given
height, filter each remaining tally, drop the tallies that become empty.
The outer none models a panic inside a per-tally filter. -/
def filterOpt (ts : Tallies) (height bhash : Nat) (s : State) : Option Tallies :=
  let relevant := ts.reverse.takeWhile (fun e => decide (height < e.1))
  if relevant.all (fun e => (Tally.filterOpt e.2 height bhash s).isSome) then
    some ((relevant.filterMap (fun e =>
      match Tally.filterOpt e.2 height bhash s with
      | some (some t') => some (e.1, t')
      | _ => Option.none)).reverse)
  else Option.none

end Tallies

/-- Fuel-indexed count of trailing zero bits of a positive number. -/
def tzAux : Nat → Nat → Nat
  | 0, _ => 0
  | Nat.succ f, n => if n % 2 = 1 then 0 else tzAux f (n / 2) + 1

/-- u64::trailing_zeros: 64 on zero, otherwise the 2-adic valuation. -/
def trailingZeros (n : Nat) : Nat := if n = 0 then 64 else tzAux n n

/-- The skip-index loop of Vote::new: with the accumulator acc and loop
counter i it looks up the vote named by acc[i] and appends entry i of
that vote's skip_idx; none models the panics of the index accesses and of
the vote lookup. -/
def skipFrom (s : State) : Nat → List Nat → Nat → Option (List Nat)
  | 0, acc, _ => some acc
  | Nat.succ steps, acc, i =>
    match acc.get? i with
    | Option.none => Option.none
    | some h =>
      match s.voteOf h with
      | Option.none => Option.none
      | some v =>
        match v.skip_idx.get? i with
        | Option.none => Option.none
        | some x => skipFrom s steps (acc ++ [x]) (i + 1)

/-- Creates a Vote from a WireVote (vote.rs, Vote::new).  none models the
panics: the expect on a missing fork choice when the wire vote carries no
values, a panorama index out of range, and the lookups of the skip-index
loop. -/
def Vote.newOpt (wv : WireVote) (fc : Option Nat) (s : State) :
    Option (Vote × Option (List Nat)) :=
  match (if wv.values.isSome then some wv.hash else fc) with
  | Option.none => Option.none
  | some block =>
    match wv.panorama.get? wv.sender with
    | Option.none => Option.none
    | some obs =>
      match obs.correct with
      | some hash =>
        match skipFrom s (trailingZeros wv.seq_number) [hash] 0 with
        | Option.none => Option.none
        | some sk =>
          some ({ panorama := wv.panorama, seq_number := wv.seq_number,
                  sender := wv.sender, block := block, skip_idx := sk }, wv.values)
      | Option.none =>
        some ({ panorama := wv.panorama, seq_number := wv.seq_number,
                sender := wv.sender, block := block, skip_idx := [] }, wv.values)

/-- Well-formedness of the modelled State: every block of positive height
has a parent that is itself a known block exactly one level below. -/
def wfStateB (s : State) : Bool :=
  s.blocks.all fun e =>
    if e.2.height = 0 then true
    else
      match e.2.parent with
      | Option.none => false
      | some p =>
        match s.blockOf p with
        | Option.none => false
        | some pblk => decide (pblk.height + 1 = e.2.height)

/-- The documented cached-maximum invariant of a Tally: the maximum is an
entry, no entry weighs more, and no entry of equal weight has a larger
hash. -/
def maxInvB (t : Tally) : Bool :=
  t.votes.any (fun e => decide (e.1 = t.max.2 ∧ e.2 = t.max.1)) &&
  t.votes.all (fun e => decide (e.2 ≤ t.max.1)) &&
  t.votes.all (fun e => decide (e.2 = t.max.1 → e.1 ≤ t.max.2))

/-- Well-formedness of a tally recorded at height h: non-empty, sorted,
cached maximum correct, and every key a known block of height h. -/
def wfTallyB (s : State) (h : Nat) (t : Tally) : Bool :=
  !t.votes.isEmpty && keySortedB t.votes && maxInvB t &&
  t.votes.all fun e =>
    match s.blockOf e.1 with
    | some blk => decide (blk.height = h)
    | Option.none => false

/-- Well-formedness of a Tallies value against a State. -/
def wfTalliesB (s : State) (ts : Tallies) : Bool :=
  keySortedB ts && ts.all fun e => wfTallyB s e.1 e.2

/-- All (hash, weight) entries represented in a Tallies, over all
heights. -/
def allVotes (ts : Tallies) : List (Nat × Nat) := ts.flatMap (fun e => e.2.votes)

/-- Sum of the weights of the entries whose hash has c as its ancestor at
height h. -/
def ancSum (s : State) (h c : Nat) (l : List (Nat × Nat)) : Nat :=
  entrySum (fun e => decide (s.findAncestor e.1 h = some (some c))) l

/-- The represented weight of the sub-tree of block c at height h: total
weight of all votes in the Tallies whose endorsed block has c as its
ancestor at height h. -/
def repWeight (s : State) (ts : Tallies) (h c : Nat) : Nat :=
  ancSum s h c (allVotes ts)

/-- The entries of the tallies at heights at least m. -/
def votesGe (ts : Tallies) (m : Nat) : List (Nat × Nat) :=
  (ts.filter (fun e => decide (m ≤ e.1))).flatMap (fun e => e.2.votes)

/-- The skip-list invariant of all votes stored in a State: a vote of
sequence number 0 has an empty skip index; a vote of positive sequence
number s has a skip index of length trailing_zeros(s) + 1 whose entry i
names a stored vote by the same sender with sequence number s - 2^i. -/
def skipInvB (s : State) : Bool :=
  s.votes.all fun e =>
    (if e.2.seq_number = 0 then e.2.skip_idx.isEmpty
     else decide (e.2.skip_idx.length = trailingZeros e.2.seq_number + 1)) &&
    (List.range e.2.skip_idx.length).all fun i =>
      match e.2.skip_idx.get? i with
      | Option.none => false
      | some x =>
        match s.voteOf x with
        | Option.none => false
        | some v' =>
          decide (v'.sender = e.2.sender ∧ v'.seq_number + 2 ^ i = e.2.seq_number)

/-- The documented invariant of the cached maximum of a Tally, as a
proposition: the pair is an entry, no entry weighs more, and among the
entries of maximal weight none has a larger hash. -/
def MaxInv (t : Tally) : Prop :=
  (t.max.2, t.max.1) ∈ t.votes ∧ (∀ e ∈ t.votes, e.2 ≤ t.max.1) ∧
    ∀ e ∈ t.votes, e.2 = t.max.1 → e.1 ≤ t.max.2

/-- The combined representation invariant of a Tally. -/
def TallyInv (t : Tally) : Prop :=
  keySortedB t.votes = true ∧ t.votes ≠ [] ∧ MaxInv t

/-- Sum of the weights of entries with a given key. -/
def keySum (c : Nat) (l : List (Nat × Nat)) : Nat :=
  entrySum (fun e => decide (e.1 = c)) l

/-- The entries of the tally recorded at height n, empty when none is. -/
def votesAt (ts : Tallies) (n : Nat) : List (Nat × Nat) :=
  match Tallies.getTally ts n with
  | some t => t.votes
  | Option.none => []

/-- The loop invariant of find_decided at a remaining height m: the
running tally satisfies the Tally invariant, its keys are known blocks of
height m, and it assigns to every block c the total weight of the
represented votes at heights at least m whose endorsed block has c as its
ancestor at height m. -/
def FdInv (s : State) (ts : Tallies) (m : Nat) (prev : Tally) : Prop :=
  TallyInv prev ∧
  (∀ e ∈ prev.votes, ∃ blk, s.blockOf e.1 = some blk ∧ blk.height = m) ∧
  (∀ c, vmGet prev.votes c = ancSum s m c (votesGe ts m))

/-- The sortedness part of the representation invariant of a Tallies
value: the height keys are sorted and every tally's vote map is sorted. -/
def TalliesInvS (ts : Tallies) : Prop :=
  keySortedB ts = true ∧ ∀ e ∈ ts, keySortedB e.2.votes = true

/-- The tallies reachable through the public Tally constructors and
operations: new, try_from_iter, add, extend, parents and filter. -/
inductive ReachableTally : Tally → Prop where
  | new : ∀ b w, ReachableTally (Tally.new b w)
  | fromIter : ∀ l t, Tally.tryFromIter l = some t → ReachableTally t
  | add : ∀ t b w, ReachableTally t → ReachableTally (t.add b w)
  | extendBy : ∀ t l, ReachableTally t → ReachableTally (t.extend l)
  | parents : ∀ t s t', ReachableTally t → t.parents s = some t' →
      ReachableTally t'
  | filterKeep : ∀ t h b s t', ReachableTally t →
      t.filterOpt h b s = some (some t') → ReachableTally t'

/-- A chain state: genesis 0, block 1 at height 1 with parent 0, block 2 at
height 2 with parent 1. -/
def exChainState : State :=
  { blocks := [(0, { height := 0, parent := Option.none }),
               (1, { height := 1, parent := some 0 }),
               (2, { height := 2, parent := some 1 })],
    votes := [] }

/-- A fork state: genesis 0 with two children 1 and 2, both at height 1. -/
def exForkState : State :=
  { blocks := [(0, { height := 0, parent := Option.none }),
               (1, { height := 1, parent := some 0 }),
               (2, { height := 1, parent := some 0 })],
    votes := [] }

/-- Tallies of two 50-weight votes for the sibling blocks 1 and 2. -/
def exForkTs : Tallies := Tallies.fromIter [(1, 1, 50), (1, 2, 50)]

/-- Tallies of a single 100-weight vote for block 2 of the chain state. -/
def exChainTs : Tallies := Tallies.fromIter [(2, 2, 100)]

/-- Tallies naming a hash unknown to every example state. -/
def exBadTs : Tallies := Tallies.fromIter [(1, 99, 1)]

/-- The fork tallies filtered at genesis. -/
def exFiltered : Tallies := (Tallies.filterOpt exForkTs 0 0 exForkState).getD []

/-- The single entry of exFiltered. -/
def exFilteredEntry : Nat × Tally :=
  ((1 : Nat), (Tallies.getTally exFiltered 1).getD (Tally.new 0 0))

/-- A vote store holding a sender's votes with sequence numbers 0 and 1. -/
def exVoteState : State :=
  { blocks := [],
    votes := [(10, { panorama := [Observation.None], seq_number := 0,
                     sender := 0, block := 0, skip_idx := [] }),
              (11, { panorama := [Observation.Correct 10], seq_number := 1,
                     sender := 0, block := 0, skip_idx := [10] })] }

/-- A wire vote with sequence number 2 whose sender slot names vote 11. -/
def exWire : WireVote :=
  { hash := 12, panorama := [Observation.Correct 11], seq_number := 2,
    sender := 0, values := some [] }

/-- The stored vote with sequence number 1. -/
def exPrevVote : Vote :=
  { panorama := [Observation.Correct 10], seq_number := 1, sender := 0,
    block := 0, skip_idx := [10] }

/-- The vote Vote::new builds from exWire. -/
def exNewVote : Vote :=
  { panorama := [Observation.Correct 11], seq_number := 2, sender := 0,
    block := 12, skip_idx := [11, 10] }

/-! Lemmas about sorted association lists and addEntry. -/

theorem keySortedB_tail {α : Type} {a : Nat × α} {l : List (Nat × α)}
    (h : keySortedB (a :: l) = true) : keySortedB l = true := by
  cases l with
  | nil => rfl
  | cons b r => simp only [keySortedB, Bool.and_eq_true] at h; exact h.2

theorem keySortedB_head_lt {α : Type} {a : Nat × α} {l : List (Nat × α)}
    (h : keySortedB (a :: l) = true) : ∀ e ∈ l, a.1 < e.1 := by
  induction l generalizing a with
  | nil => intro e he; cases he
  | cons b r ih =>
    intro e he
    simp only [keySortedB, Bool.and_eq_true, decide_eq_true_eq] at h
    rcases List.mem_cons.mp he with he | he
    · exact he ▸ h.1
    · exact lt_trans h.1 (ih h.2 e he)

theorem keySortedB_cons_of {α : Type} {a : Nat × α} {l : List (Nat × α)}
    (h : keySortedB l = true) (hlt : ∀ e ∈ l, a.1 < e.1) :
    keySortedB (a :: l) = true := by
  cases l with
  | nil => rfl
  | cons b r =>
    simp only [keySortedB, Bool.and_eq_true, decide_eq_true_eq]
    exact ⟨hlt b (List.mem_cons_self b r), h⟩

theorem vmGet_nil (b : Nat) : vmGet [] b = 0 := rfl

theorem vmGet_cons (e : Nat × Nat) (r : List (Nat × Nat)) (b : Nat) :
    vmGet (e :: r) b = if e.1 = b then e.2 else vmGet r b := by
  by_cases h : e.1 = b
  · simp [vmGet, List.find?_cons, h]
  · simp [vmGet, List.find?_cons, h]

theorem vmGet_eq_of_mem {v : List (Nat × Nat)} {c w : Nat}
    (hs : keySortedB v = true) (hm : (c, w) ∈ v) : vmGet v c = w := by
  induction v with
  | nil => cases hm
  | cons e r ih =>
    rcases List.mem_cons.mp hm with hm | hm
    · rw [← hm, vmGet_cons]; simp
    · rw [vmGet_cons]
      have hlt := keySortedB_head_lt hs (c, w) hm
      have : e.1 ≠ c := by omega
      simp only [this, if_false]
      exact ih (keySortedB_tail hs) hm

theorem vmGet_eq_zero_of_forall_lt {v : List (Nat × Nat)} {c : Nat}
    (h : ∀ e ∈ v, c < e.1) : vmGet v c = 0 := by
  induction v with
  | nil => rfl
  | cons e r ih =>
    rw [vmGet_cons]
    have h1 := h e (List.mem_cons_self e r)
    have : e.1 ≠ c := by omega
    simp only [this, if_false]
    exact ih (fun e' he' => h e' (List.mem_cons_of_mem e he'))

theorem addEntry_ne_nil (v : List (Nat × Nat)) (b w : Nat) : addEntry v b w ≠ [] := by
  cases v with
  | nil => simp [addEntry]
  | cons e r =>
    unfold addEntry
    split
    · simp
    · split <;> simp

theorem listWeight_nil : listWeight [] = 0 := rfl

theorem listWeight_cons (e : Nat × Nat) (r : List (Nat × Nat)) :
    listWeight (e :: r) = e.2 + listWeight r := by
  simp [listWeight]

theorem listWeight_addEntry (v : List (Nat × Nat)) (b w : Nat) :
    listWeight (addEntry v b w) = listWeight v + w := by
  induction v with
  | nil => simp [addEntry, listWeight]
  | cons e r ih =>
    unfold addEntry
    split
    · simp [listWeight_cons]; omega
    · split
      · simp [listWeight_cons]; omega
      · simp [listWeight_cons, ih]; omega

theorem mem_addEntry {v : List (Nat × Nat)} {b w : Nat} {e' : Nat × Nat}
    (h : e' ∈ addEntry v b w) : e' ∈ v ∨ e'.1 = b := by
  induction v with
  | nil =>
    simp only [addEntry, List.mem_singleton] at h
    right; rw [h]
  | cons e r ih =>
    unfold addEntry at h
    split at h
    · rcases List.mem_cons.mp h with h | h
      · right; rw [h]
      · left; exact h
    · rename_i hlt
      split at h
      · rename_i heq2
        rcases List.mem_cons.mp h with h | h
        · right; rw [h]; omega
        · left; exact List.mem_cons_of_mem e h
      · rcases List.mem_cons.mp h with h | h
        · left; exact h ▸ List.mem_cons_self e r
        · rcases ih h with h' | h'
          · left; exact List.mem_cons_of_mem e h'
          · right; exact h'

theorem mem_addEntry_of_ne {v : List (Nat × Nat)} {b w : Nat} {e : Nat × Nat}
    (hm : e ∈ v) (hne : e.1 ≠ b) : e ∈ addEntry v b w := by
  induction v with
  | nil => cases hm
  | cons e0 r ih =>
    unfold addEntry
    rcases List.mem_cons.mp hm with hm | hm
    · subst hm
      split
      · exact List.mem_cons_of_mem _ (List.mem_cons_self e r)
      · split
        · rename_i h1 h2
          exact absurd h2.symm hne
        · exact List.mem_cons_self e _
    · split
      · exact List.mem_cons_of_mem _ (List.mem_cons_of_mem e0 hm)
      · split
        · exact List.mem_cons_of_mem _ hm
        · exact List.mem_cons_of_mem e0 (ih hm)

theorem self_mem_addEntry {v : List (Nat × Nat)} (hs : keySortedB v = true)
    (b w : Nat) : (b, vmGet v b + w) ∈ addEntry v b w := by
  induction v with
  | nil => simp [addEntry, vmGet]
  | cons e r ih =>
    unfold addEntry
    split
    · rename_i hlt
      have : e.1 ≠ b := by omega
      rw [vmGet_cons]
      simp only [this, if_false]
      have : vmGet r b = 0 :=
        vmGet_eq_zero_of_forall_lt (fun e' he' => lt_trans hlt (keySortedB_head_lt hs e' he'))
      rw [this]
      simp
    · split
      · rename_i h1 h2
        subst h2
        have hv : vmGet (e :: r) e.1 = e.2 := by rw [vmGet_cons]; simp
        rw [hv]
        exact List.mem_cons_self _ _
      · rename_i h1 h2
        rw [vmGet_cons]
        have h3 : e.1 ≠ b := fun hh => h2 hh.symm
        simp only [h3, if_false]
        exact List.mem_cons_of_mem e (ih (keySortedB_tail hs))

theorem vmGet_addEntry {v : List (Nat × Nat)} (hs : keySortedB v = true)
    (b w c : Nat) :
    vmGet (addEntry v b w) c = vmGet v c + if c = b then w else 0 := by
  induction v with
  | nil =>
    show vmGet [(b, w)] c = vmGet [] c + if c = b then w else 0
    simp only [vmGet_cons, vmGet_nil]
    split_ifs <;> omega
  | cons e r ih =>
    unfold addEntry
    split
    · rename_i hlt
      have h2 : vmGet r c = 0 ∨ ¬ c = b := by
        by_cases h : c = b
        · left
          subst h
          exact vmGet_eq_zero_of_forall_lt
            (fun e' he' => lt_trans hlt (keySortedB_head_lt hs e' he'))
        · right; exact h
      simp only [vmGet_cons]
      rcases h2 with h2 | h2 <;> split_ifs <;> omega
    · split
      · rename_i h1 h2
        simp only [vmGet_cons]
        split_ifs <;> omega
      · rename_i h1 h2
        simp only [vmGet_cons]
        rw [ih (keySortedB_tail hs)]
        split_ifs <;> omega

theorem addEntry_sorted {v : List (Nat × Nat)} (hs : keySortedB v = true)
    (b w : Nat) : keySortedB (addEntry v b w) = true := by
  induction v with
  | nil => rfl
  | cons e r ih =>
    unfold addEntry
    split
    · rename_i hlt
      apply keySortedB_cons_of hs
      intro e' he'
      rcases List.mem_cons.mp he' with he' | he'
      · rw [he']; exact hlt
      · exact lt_trans hlt (keySortedB_head_lt hs e' he')
    · split
      · rename_i h1 h2
        apply keySortedB_cons_of (keySortedB_tail hs)
        intro e' he'
        exact keySortedB_head_lt hs e' he'
      · rename_i h1 h2
        apply keySortedB_cons_of (ih (keySortedB_tail hs))
        intro e' he'
        rcases mem_addEntry he' with h' | h'
        · exact keySortedB_head_lt hs e' h'
        · omega

/-! Lemmas about lexMax and the cached-maximum invariant. -/

theorem lexMax_eq_right {p q : Nat × Nat}
    (h : p.1 < q.1 ∨ (p.1 = q.1 ∧ p.2 ≤ q.2)) : lexMax p q = q := if_pos h

theorem lexMax_eq_left {p q : Nat × Nat}
    (h : ¬(p.1 < q.1 ∨ (p.1 = q.1 ∧ p.2 ≤ q.2))) : lexMax p q = p := if_neg h

theorem votes_add (t : Tally) (b w : Nat) :
    (t.add b w).votes = addEntry t.votes b w := rfl

theorem max_add (t : Tally) (b w : Nat) :
    (t.add b w).max = lexMax (vmGet t.votes b + w, b) t.max := rfl

theorem mem_addEntry_cases {v : List (Nat × Nat)} (hs : keySortedB v = true)
    {b w : Nat} {e' : Nat × Nat} (h : e' ∈ addEntry v b w) :
    (e' ∈ v ∧ e'.1 ≠ b) ∨ e' = (b, vmGet v b + w) := by
  by_cases hb : e'.1 = b
  · right
    have hmem : (e'.1, e'.2) ∈ addEntry v b w := by
      rw [Prod.mk.eta]; exact h
    have hval : vmGet (addEntry v b w) e'.1 = e'.2 :=
      vmGet_eq_of_mem (addEntry_sorted hs b w) hmem
    rw [vmGet_addEntry hs b w e'.1] at hval
    simp only [hb, if_pos] at hval
    apply Prod.ext hb
    rw [← hval]
  · rcases mem_addEntry h with h' | h'
    · left; exact ⟨h', hb⟩
    · exact absurd h' hb

theorem maxInv_new (b w : Nat) : MaxInv (Tally.new b w) := by
  refine ⟨?_, ?_, ?_⟩
  · show ((w, b).2, (w, b).1) ∈ [(b, w)]
    simp
  · intro e he
    have he2 : e = (b, w) := by simpa [Tally.new] using he
    rw [he2]
    exact Nat.le_refl w
  · intro e he _
    have he2 : e = (b, w) := by simpa [Tally.new] using he
    rw [he2]
    exact Nat.le_refl b

theorem tallyInv_new (b w : Nat) : TallyInv (Tally.new b w) :=
  ⟨rfl, by simp [Tally.new], maxInv_new b w⟩

theorem maxInv_add {t : Tally} (hs : keySortedB t.votes = true) (hmax : MaxInv t)
    (b w : Nat) : MaxInv (t.add b w) := by
  obtain ⟨hmem, hub, htie⟩ := hmax
  have hvm : vmGet t.votes t.max.2 = t.max.1 := vmGet_eq_of_mem hs hmem
  by_cases hC : vmGet t.votes b + w < t.max.1 ∨
      (vmGet t.votes b + w = t.max.1 ∧ b ≤ t.max.2)
  · have hM : (t.add b w).max = t.max := by
      rw [max_add]; exact lexMax_eq_right hC
    rw [MaxInv, hM, votes_add]
    refine ⟨?_, ?_, ?_⟩
    · by_cases hb : t.max.2 = b
      · have hget : vmGet t.votes b = t.max.1 := hb ▸ hvm
        have hw0 : vmGet t.votes b + w = t.max.1 := by
          rcases hC with h | h
          · omega
          · exact h.1
        have := self_mem_addEntry hs b w
        rw [hw0] at this
        rw [hb]
        exact this
      · exact mem_addEntry_of_ne hmem hb
    · intro e he
      rcases mem_addEntry_cases hs he with h | h
      · exact hub e h.1
      · rw [h]; rcases hC with h' | h' <;> simp <;> omega
    · intro e he he2
      rcases mem_addEntry_cases hs he with h | h
      · exact htie e h.1 he2
      · rcases hC with h' | h'
        · rw [h] at he2; simp at he2; omega
        · rw [h]; exact h'.2
  · have hM : (t.add b w).max = (vmGet t.votes b + w, b) := by
      rw [max_add]; exact lexMax_eq_left hC
    push_neg at hC
    rw [MaxInv, hM, votes_add]
    refine ⟨self_mem_addEntry hs b w, ?_, ?_⟩
    · intro e he
      rcases mem_addEntry_cases hs he with h | h
      · have := hub e h.1
        simp only []
        omega
      · rw [h]
    · intro e he he2
      rcases mem_addEntry_cases hs he with h | h
      · have h1 := hub e h.1
        simp only [] at he2
        have h2 : vmGet t.votes b + w = t.max.1 := by omega
        have h3 := hC.2 h2
        have h4 := htie e h.1 (by omega)
        simp only []
        omega
      · rw [h]

theorem tallyInv_add {t : Tally} (h : TallyInv t) (b w : Nat) :
    TallyInv (t.add b w) :=
  ⟨addEntry_sorted h.1 b w, addEntry_ne_nil t.votes b w,
    maxInv_add h.1 h.2.2 b w⟩

/-! Lemmas about extend and tryFromIter. -/

theorem entrySum_nil (p : Nat × Nat → Bool) : entrySum p [] = 0 := rfl

theorem entrySum_cons (p : Nat × Nat → Bool) (e : Nat × Nat) (r : List (Nat × Nat)) :
    entrySum p (e :: r) = (if p e then e.2 else 0) + entrySum p r := by
  by_cases h : p e
  · simp [entrySum, List.filter_cons, h]
  · simp [entrySum, List.filter_cons, h]

theorem entrySum_append (p : Nat × Nat → Bool) (l1 l2 : List (Nat × Nat)) :
    entrySum p (l1 ++ l2) = entrySum p l1 + entrySum p l2 := by
  induction l1 with
  | nil => simp [entrySum_nil]
  | cons e r ih => rw [List.cons_append, entrySum_cons, entrySum_cons, ih]; omega

theorem keySum_cons (c : Nat) (e : Nat × Nat) (r : List (Nat × Nat)) :
    keySum c (e :: r) = (if e.1 = c then e.2 else 0) + keySum c r := by
  rw [keySum, entrySum_cons]
  by_cases h : e.1 = c <;> simp [h, keySum]

theorem tallyInv_extend {t : Tally} (h : TallyInv t) (l : List (Nat × Nat)) :
    TallyInv (t.extend l) := by
  induction l generalizing t with
  | nil => exact h
  | cons e r ih => exact ih (tallyInv_add h e.1 e.2)

theorem votes_extend_cons (t : Tally) (e : Nat × Nat) (r : List (Nat × Nat)) :
    t.extend (e :: r) = (t.add e.1 e.2).extend r := rfl

theorem vmGet_extend {t : Tally} (hs : keySortedB t.votes = true)
    (l : List (Nat × Nat)) (c : Nat) :
    vmGet (t.extend l).votes c = vmGet t.votes c + keySum c l := by
  induction l generalizing t with
  | nil => simp [Tally.extend, keySum, entrySum_nil]
  | cons e r ih =>
    rw [votes_extend_cons, ih (addEntry_sorted hs e.1 e.2), keySum_cons]
    rw [votes_add, vmGet_addEntry hs e.1 e.2 c]
    by_cases h : c = e.1
    · simp [h]; omega
    · have h' : e.1 ≠ c := fun hh => h hh.symm
      simp [h, h']

theorem weight_extend (t : Tally) (l : List (Nat × Nat)) :
    (t.extend l).weight = t.weight + listWeight l := by
  induction l generalizing t with
  | nil => simp [Tally.extend, listWeight]
  | cons e r ih =>
    rw [votes_extend_cons, ih]
    show listWeight (addEntry t.votes e.1 e.2) + listWeight r =
      listWeight t.votes + listWeight (e :: r)
    rw [listWeight_addEntry, listWeight_cons]
    omega

theorem mem_extend_keys {t : Tally} {l : List (Nat × Nat)} {e' : Nat × Nat}
    (h : e' ∈ (t.extend l).votes) :
    e'.1 ∈ t.votes.map Prod.fst ∨ e'.1 ∈ l.map Prod.fst := by
  induction l generalizing t with
  | nil => left; exact List.mem_map_of_mem Prod.fst h
  | cons e r ih =>
    rw [votes_extend_cons] at h
    rcases ih h with h' | h'
    · rw [votes_add] at h'
      rcases List.mem_map.mp h' with ⟨e2, he2, heq⟩
      rcases mem_addEntry he2 with h2 | h2
      · left; exact heq ▸ List.mem_map_of_mem Prod.fst h2
      · right; rw [← heq, h2]; simp
    · right
      rw [List.map_cons]
      exact List.mem_cons_of_mem e.1 h'

theorem tallyInv_tryFromIter {l : List (Nat × Nat)} {t : Tally}
    (h : Tally.tryFromIter l = some t) : TallyInv t := by
  cases l with
  | nil => cases h
  | cons e r =>
    rw [Tally.tryFromIter] at h
    have h2 := Option.some.inj h
    subst h2
    exact tallyInv_extend (tallyInv_new e.1 e.2) r

theorem vmGet_tryFromIter {l : List (Nat × Nat)} {t : Tally}
    (h : Tally.tryFromIter l = some t) (c : Nat) :
    vmGet t.votes c = keySum c l := by
  cases l with
  | nil => cases h
  | cons e r =>
    rw [Tally.tryFromIter] at h
    have h2 := Option.some.inj h
    subst h2
    rw [vmGet_extend (show keySortedB (Tally.new e.1 e.2).votes = true from rfl) r c,
      keySum_cons]
    have hnew : vmGet (Tally.new e.1 e.2).votes c = if e.1 = c then e.2 else 0 := by
      show vmGet [(e.1, e.2)] c = _
      rw [vmGet_cons, vmGet_nil]
    rw [hnew]

theorem weight_tryFromIter {l : List (Nat × Nat)} {t : Tally}
    (h : Tally.tryFromIter l = some t) : t.weight = listWeight l := by
  cases l with
  | nil => cases h
  | cons e r =>
    rw [Tally.tryFromIter] at h
    have h2 := Option.some.inj h
    subst h2
    rw [weight_extend, listWeight_cons]
    show listWeight [(e.1, e.2)] + listWeight r = _
    rw [listWeight_cons, listWeight_nil]
    omega

theorem keys_tryFromIter {l : List (Nat × Nat)} {t : Tally}
    (h : Tally.tryFromIter l = some t) {e' : Nat × Nat} (he' : e' ∈ t.votes) :
    e'.1 ∈ l.map Prod.fst := by
  cases l with
  | nil => cases h
  | cons e r =>
    rw [Tally.tryFromIter] at h
    have h2 := Option.some.inj h
    subst h2
    rcases mem_extend_keys he' with h2 | h2
    · have : e'.1 = e.1 := by simpa [Tally.new] using h2
      rw [List.map_cons, this]
      exact List.mem_cons_self e.1 _
    · rw [List.map_cons]
      exact List.mem_cons_of_mem e.1 h2

theorem tryFromIter_ne_nil {l : List (Nat × Nat)} (h : l ≠ []) :
    ∃ t, Tally.tryFromIter l = some t := by
  cases l with
  | nil => exact absurd rfl h
  | cons e r => exact ⟨_, rfl⟩

/-! Lemmas about findAncestor under state well-formedness. -/

theorem wfState_parent {s : State} (hwf : wfStateB s = true) {bh : Nat}
    {blk : Block} (h : s.blockOf bh = some blk) (hpos : 0 < blk.height) :
    ∃ p pblk, blk.parent = some p ∧ s.blockOf p = some pblk ∧
      pblk.height + 1 = blk.height := by
  rcases Option.map_eq_some'.mp h with ⟨e, hfind, he2⟩
  have hmem : e ∈ s.blocks := List.mem_of_find?_eq_some hfind
  have hb := List.all_eq_true.mp hwf e hmem
  rw [he2] at hb
  rw [if_neg (by omega)] at hb
  cases hpar : blk.parent with
  | none => simp only [hpar] at hb; cases hb
  | some p =>
    simp only [hpar] at hb
    cases hpblk : s.blockOf p with
    | none => simp only [hpblk] at hb; cases hb
    | some pblk =>
      simp only [hpblk] at hb
      exact ⟨p, pblk, rfl, hpblk, of_decide_eq_true hb⟩

theorem faFuel_at_height {s : State} {bh : Nat} {blk : Block} {t : Nat}
    (h : s.blockOf bh = some blk) (ht : blk.height = t) (fuel : Nat) :
    faFuel s fuel bh t = some (some bh) := by
  cases fuel with
  | zero => simp only [faFuel, h]; rw [if_neg (by omega), if_pos ht]
  | succ f => simp only [faFuel, h]; rw [if_neg (by omega), if_pos ht]

theorem faFuel_above {s : State} {bh : Nat} {blk : Block} {t : Nat}
    (h : s.blockOf bh = some blk) (hlt : blk.height < t) (fuel : Nat) :
    faFuel s fuel bh t = some Option.none := by
  cases fuel with
  | zero => simp only [faFuel, h]; rw [if_pos hlt]
  | succ f => simp only [faFuel, h]; rw [if_pos hlt]

theorem faFuel_reaches {s : State} (hwf : wfStateB s = true) :
    ∀ (fuel : Nat) {bh : Nat} {blk : Block} {t : Nat},
      s.blockOf bh = some blk → t ≤ blk.height → blk.height ≤ t + fuel →
      ∃ a ablk, faFuel s fuel bh t = some (some a) ∧ s.blockOf a = some ablk ∧
        ablk.height = t := by
  intro fuel
  induction fuel with
  | zero =>
    intro bh blk t h hle hbound
    have ht : blk.height = t := by omega
    exact ⟨bh, blk, faFuel_at_height h ht 0, h, ht⟩
  | succ f ih =>
    intro bh blk t h hle hbound
    by_cases ht : blk.height = t
    · exact ⟨bh, blk, faFuel_at_height h ht (f + 1), h, ht⟩
    · have hpos : 0 < blk.height := by omega
      rcases wfState_parent hwf h hpos with ⟨p, pblk, hpar, hp, hph⟩
      rcases ih (t := t) hp (by omega) (by omega) with ⟨a, ablk, hfa, ha, hah⟩
      refine ⟨a, ablk, ?_, ha, hah⟩
      simp only [faFuel, h]
      rw [if_neg (by omega), if_neg ht]
      simp only [hpar]
      exact hfa

theorem findAncestor_self {s : State} {bh : Nat} {blk : Block}
    (h : s.blockOf bh = some blk) :
    s.findAncestor bh blk.height = some (some bh) := by
  simp only [State.findAncestor, h]
  exact faFuel_at_height h rfl blk.height

theorem findAncestor_above {s : State} {bh : Nat} {blk : Block} {t : Nat}
    (h : s.blockOf bh = some blk) (hlt : blk.height < t) :
    s.findAncestor bh t = some Option.none := by
  simp only [State.findAncestor, h]
  exact faFuel_above h hlt blk.height

theorem findAncestor_success {s : State} (hwf : wfStateB s = true) {bh : Nat}
    {blk : Block} {t : Nat} (h : s.blockOf bh = some blk) (ht : t ≤ blk.height) :
    ∃ a ablk, s.findAncestor bh t = some (some a) ∧ s.blockOf a = some ablk ∧
      ablk.height = t := by
  simp only [State.findAncestor, h]
  exact faFuel_reaches hwf blk.height h ht (by omega)

theorem findAncestor_isSome {s : State} (hwf : wfStateB s = true) {bh : Nat}
    {blk : Block} (h : s.blockOf bh = some blk) (t : Nat) :
    (s.findAncestor bh t).isSome = true := by
  by_cases ht : t ≤ blk.height
  · rcases findAncestor_success hwf h ht with ⟨a, ablk, hfa, _, _⟩
    rw [hfa]; rfl
  · rw [findAncestor_above h (by omega)]; rfl

theorem faFuel_step {s : State} (hwf : wfStateB s = true) :
    ∀ (fuel : Nat) {bh : Nat} {blk : Block} {t c : Nat},
      s.blockOf bh = some blk → blk.height ≤ t + fuel →
      faFuel s fuel bh (t + 1) = some (some c) →
      ∃ cblk, s.blockOf c = some cblk ∧ cblk.height = t + 1 ∧
        ∀ p, cblk.parent = some p → faFuel s fuel bh t = some (some p) := by
  intro fuel
  induction fuel with
  | zero =>
    intro bh blk t c h hbound hsucc
    simp only [faFuel, h] at hsucc
    rw [if_pos (by omega)] at hsucc
    cases hsucc
  | succ f ih =>
    intro bh blk t c h hbound hsucc
    simp only [faFuel, h] at hsucc
    by_cases h1 : blk.height < t + 1
    · rw [if_pos h1] at hsucc; cases hsucc
    · rw [if_neg h1] at hsucc
      by_cases h2 : blk.height = t + 1
      · rw [if_pos h2] at hsucc
        have hc : c = bh := by simpa using hsucc.symm
        subst hc
        refine ⟨blk, h, h2, ?_⟩
        intro p hpar
        rcases wfState_parent hwf h (by omega) with ⟨p', pblk, hpar', hp', hph'⟩
        simp only [faFuel, h]
        rw [if_neg (by omega), if_neg (by omega)]
        simp only [hpar']
        rw [hpar'] at hpar
        have hpp : p' = p := by injection hpar
        subst hpp
        exact faFuel_at_height hp' (by omega) f
      · rw [if_neg h2] at hsucc
        cases hpar : blk.parent with
        | none => simp only [hpar] at hsucc; cases hsucc
        | some q =>
          simp only [hpar] at hsucc
          rcases wfState_parent hwf h (by omega) with ⟨q', qblk, hpar', hq', hqh'⟩
          rw [hpar'] at hpar
          have hqq : q' = q := by injection hpar
          subst hqq
          rcases ih hq' (by omega) hsucc with ⟨cblk, hc, hch, hrec⟩
          refine ⟨cblk, hc, hch, ?_⟩
          intro p hp
          simp only [faFuel, h]
          rw [if_neg (by omega), if_neg (by omega)]
          simp only [hpar']
          exact hrec p hp

theorem findAncestor_step {s : State} (hwf : wfStateB s = true) {bh : Nat}
    {blk : Block} {t c : Nat} (h : s.blockOf bh = some blk)
    (hsucc : s.findAncestor bh (t + 1) = some (some c)) :
    ∃ cblk, s.blockOf c = some cblk ∧ cblk.height = t + 1 ∧
      ∀ p, cblk.parent = some p → s.findAncestor bh t = some (some p) := by
  simp only [State.findAncestor, h] at hsucc ⊢
  exact faFuel_step hwf blk.height h (by omega) hsucc

/-! Generic weighted-sum lemmas. -/

theorem entrySum_le_of_imp {p q : Nat × Nat → Bool} {l : List (Nat × Nat)}
    (h : ∀ e ∈ l, p e = true → q e = true) : entrySum p l ≤ entrySum q l := by
  induction l with
  | nil => exact Nat.le_refl 0
  | cons e r ih =>
    rw [entrySum_cons, entrySum_cons]
    have hr := ih (fun e' he' => h e' (List.mem_cons_of_mem e he'))
    by_cases hp : p e
    · rw [if_pos hp, if_pos (h e (List.mem_cons_self e r) hp)]
      omega
    · rw [if_neg hp]
      split <;> omega

theorem entrySum_eq_zero {p : Nat × Nat → Bool} {l : List (Nat × Nat)}
    (h : ∀ e ∈ l, p e = false) : entrySum p l = 0 := by
  induction l with
  | nil => rfl
  | cons e r ih =>
    rw [entrySum_cons, if_neg ?_, ih (fun e' he' => h e' (List.mem_cons_of_mem e he'))]
    rw [h e (List.mem_cons_self e r)]
    simp

theorem entrySum_eq_zero_weights {p : Nat × Nat → Bool} {l : List (Nat × Nat)}
    (h : ∀ e ∈ l, e.2 = 0) : entrySum p l = 0 := by
  induction l with
  | nil => rfl
  | cons e r ih =>
    rw [entrySum_cons, ih (fun e' he' => h e' (List.mem_cons_of_mem e he'))]
    rw [h e (List.mem_cons_self e r)]
    simp

theorem mem_le_entrySum {p : Nat × Nat → Bool} {l : List (Nat × Nat)}
    {e : Nat × Nat} (hm : e ∈ l) (hp : p e = true) : e.2 ≤ entrySum p l := by
  induction l with
  | nil => cases hm
  | cons e0 r ih =>
    rw [entrySum_cons]
    rcases List.mem_cons.mp hm with h | h
    · rw [← h, if_pos hp]; omega
    · have := ih h
      split <;> omega

theorem entrySum_eq_listWeight {p : Nat × Nat → Bool} {l : List (Nat × Nat)}
    (h : ∀ e ∈ l, p e = true) : entrySum p l = listWeight l := by
  induction l with
  | nil => rfl
  | cons e r ih =>
    rw [entrySum_cons, listWeight_cons,
      ih (fun e' he' => h e' (List.mem_cons_of_mem e he')),
      if_pos (h e (List.mem_cons_self e r))]

theorem entrySum_filter_of_imp {p q : Nat × Nat → Bool} {l : List (Nat × Nat)}
    (h : ∀ e ∈ l, p e = true → q e = true) :
    entrySum p (l.filter q) = entrySum p l := by
  induction l with
  | nil => rfl
  | cons e r ih =>
    have hr := ih (fun e' he' => h e' (List.mem_cons_of_mem e he'))
    rw [List.filter_cons]
    by_cases hq : q e
    · rw [if_pos hq, entrySum_cons, entrySum_cons, hr]
    · rw [if_neg hq, entrySum_cons, hr, if_neg ?_]
      · omega
      · intro hp
        exact hq (h e (List.mem_cons_self e r) hp)

theorem entrySum_filter_split (p q : Nat × Nat → Bool) (l : List (Nat × Nat)) :
    entrySum p l = entrySum p (l.filter q) + entrySum p (l.filter (fun e => !q e)) := by
  induction l with
  | nil => rfl
  | cons e r ih =>
    cases hq : q e
    · simp only [entrySum_cons, List.filter_cons, hq, Bool.not_false, if_pos,
        if_neg, Bool.false_eq_true, ite_false, ite_true, ih]
      omega
    · simp only [entrySum_cons, List.filter_cons, hq, Bool.not_true, if_pos,
        if_neg, Bool.false_eq_true, ite_false, ite_true, ih]
      omega

theorem entrySum_congr {p q : Nat × Nat → Bool} {l : List (Nat × Nat)}
    (h : ∀ e ∈ l, p e = q e) : entrySum p l = entrySum q l := by
  induction l with
  | nil => rfl
  | cons e r ih =>
    rw [entrySum_cons, entrySum_cons, h e (List.mem_cons_self e r),
      ih (fun e' he' => h e' (List.mem_cons_of_mem e he'))]

/-! The regrouping lemma: pushing an aggregated tally one level down. -/

theorem keySum_parentPairs {s : State} :
    ∀ {v l' : List (Nat × Nat)}, Tally.parentPairs s v = some l' → ∀ c,
      keySum c l' = entrySum (fun e => decide (s.parentOf e.1 = some c)) v := by
  intro v
  induction v with
  | nil =>
    intro l' h c
    rw [Tally.parentPairs] at h
    have h2 := Option.some.inj h
    rw [← h2]
    rfl
  | cons e r ih =>
    intro l' h c
    rw [Tally.parentPairs] at h
    cases hblk : s.blockOf e.1 with
    | none => simp only [hblk] at h; cases h
    | some blk =>
      simp only [hblk] at h
      cases hpar : blk.parent with
      | none => simp only [hpar] at h; cases h
      | some p =>
        simp only [hpar] at h
        cases hrec : Tally.parentPairs s r with
        | none => simp only [hrec] at h; cases h
        | some r' =>
          simp only [hrec] at h
          have h2 := Option.some.inj h
          rw [← h2, keySum_cons, entrySum_cons, ih hrec c]
          have hpo : s.parentOf e.1 = some p := by
            rw [State.parentOf]
            simp only [hblk, hpar]
          rw [hpo]
          by_cases hpc : p = c
          · rw [if_pos hpc, if_pos (by rw [hpc]; exact decide_eq_true rfl)]
          · rw [if_neg hpc, if_neg ?_]
            simp [hpc]

theorem parentPairs_some {s : State} :
    ∀ {v : List (Nat × Nat)},
      (∀ e ∈ v, ∃ blk p, s.blockOf e.1 = some blk ∧ blk.parent = some p) →
      ∃ l', Tally.parentPairs s v = some l' ∧ listWeight l' = listWeight v ∧
        (v = [] ↔ l' = []) ∧
        (∀ e' ∈ l', ∃ e blk, e ∈ v ∧ s.blockOf e.1 = some blk ∧
          blk.parent = some e'.1) := by
  intro v
  induction v with
  | nil =>
    intro
    exact ⟨[], rfl, rfl, by simp, by simp⟩
  | cons e r ih =>
    intro h
    rcases h e (List.mem_cons_self e r) with ⟨blk, p, hblk, hpar⟩
    rcases ih (fun e' he' => h e' (List.mem_cons_of_mem e he')) with
      ⟨r', hr', hw, hnil, hkeys⟩
    refine ⟨(p, e.2) :: r', ?_, ?_, by simp, ?_⟩
    · rw [Tally.parentPairs]
      simp only [hblk, hpar, hr']
    · rw [listWeight_cons, listWeight_cons, hw]
    · intro e' he'
      rcases List.mem_cons.mp he' with h2 | h2
      · exact ⟨e, blk, List.mem_cons_self e r, hblk, by rw [h2]; exact hpar⟩
      · rcases hkeys e' h2 with ⟨e0, blk0, he0, hblk0, hpar0⟩
        exact ⟨e0, blk0, List.mem_cons_of_mem e he0, hblk0, hpar0⟩

theorem regroup {s : State} {hi lo c : Nat} :
    ∀ {m l : List (Nat × Nat)},
      keySortedB m = true →
      (∀ d, vmGet m d = ancSum s hi d l) →
      (∀ e ∈ l, ∃ d, s.findAncestor e.1 hi = some (some d)) →
      (∀ e ∈ l, ∀ d, s.findAncestor e.1 hi = some (some d) →
        (s.findAncestor e.1 lo = some (some c) ↔ s.parentOf d = some c)) →
      entrySum (fun e => decide (s.parentOf e.1 = some c)) m = ancSum s lo c l := by
  intro m
  induction m with
  | nil =>
    intro l hs hget hanc hrel
    rw [entrySum_nil]
    symm
    apply entrySum_eq_zero_weights
    intro e he
    rcases hanc e he with ⟨d, hd⟩
    have h1 : e.2 ≤ ancSum s hi d l :=
      mem_le_entrySum he (decide_eq_true hd)
    rw [← hget d, vmGet_nil] at h1
    omega
  | cons e0 m' ih =>
    intro l hs hget hanc hrel
    have hKl : ancSum s hi e0.1 l = e0.2 := by
      rw [← hget e0.1, vmGet_cons]
      simp
    set q : Nat × Nat → Bool :=
      fun e => decide (s.findAncestor e.1 hi = some (some e0.1)) with hq
    have hget' : ∀ d, vmGet m' d = ancSum s hi d (l.filter (fun e => !q e)) := by
      intro d
      by_cases hd : d = e0.1
      · rw [hd]
        have h1 : vmGet m' e0.1 = 0 :=
          vmGet_eq_zero_of_forall_lt (keySortedB_head_lt hs)
        rw [h1]
        symm
        apply entrySum_eq_zero
        intro e he
        have h2 := (List.mem_filter.mp he).2
        rw [hq] at h2
        simp only [Bool.not_eq_true'] at h2
        rw [decide_eq_false_iff_not] at h2 ⊢
        exact h2
      · have h1 : vmGet (e0 :: m') d = vmGet m' d := by
          rw [vmGet_cons, if_neg (fun hh => hd hh.symm)]
        rw [← h1, hget d]
        symm
        rw [ancSum]
        apply entrySum_filter_of_imp
        intro e he hp
        rw [hq]
        simp only [Bool.not_eq_true']
        rw [decide_eq_false_iff_not]
        intro hk
        rw [decide_eq_true_iff] at hp
        rw [hp] at hk
        have h3 := Option.some.inj (Option.some.inj hk)
        exact hd h3
    have hanc' : ∀ e ∈ l.filter (fun e => !q e), ∃ d,
        s.findAncestor e.1 hi = some (some d) :=
      fun e he => hanc e (List.mem_filter.mp he).1
    have hrel' : ∀ e ∈ l.filter (fun e => !q e), ∀ d,
        s.findAncestor e.1 hi = some (some d) →
        (s.findAncestor e.1 lo = some (some c) ↔ s.parentOf d = some c) :=
      fun e he => hrel e (List.mem_filter.mp he).1
    have hIH := ih (keySortedB_tail hs) hget' hanc' hrel'
    have hsplit : ancSum s lo c l =
        ancSum s lo c (l.filter q) + ancSum s lo c (l.filter (fun e => !q e)) :=
      entrySum_filter_split _ q l
    have hpart : ancSum s lo c (l.filter q) =
        if s.parentOf e0.1 = some c then e0.2 else 0 := by
      by_cases hpc : s.parentOf e0.1 = some c
      · rw [if_pos hpc, ancSum]
        have hall : ∀ e ∈ l.filter q,
            decide (s.findAncestor e.1 lo = some (some c)) = true := by
          intro e he
          rcases List.mem_filter.mp he with ⟨hel, heq⟩
          rw [hq, decide_eq_true_iff] at heq
          rw [decide_eq_true_iff]
          exact (hrel e hel e0.1 heq).mpr hpc
        rw [entrySum_eq_listWeight hall]
        have h2 : listWeight (l.filter q) = entrySum q l := rfl
        rw [h2, hq]
        exact hKl
      · rw [if_neg hpc, ancSum]
        apply entrySum_eq_zero
        intro e he
        rcases List.mem_filter.mp he with ⟨hel, heq⟩
        rw [hq, decide_eq_true_iff] at heq
        rw [decide_eq_false_iff_not]
        intro hlo
        exact hpc ((hrel e hel e0.1 heq).mp hlo)
    rw [entrySum_cons, hIH, hsplit, hpart]
    by_cases hpc : s.parentOf e0.1 = some c
    · simp [hpc]
    · simp [hpc]

/-! Extraction lemmas for the boolean well-formedness predicates. -/

theorem maxInv_of_maxInvB {t : Tally} (h : maxInvB t = true) : MaxInv t := by
  rw [maxInvB, Bool.and_eq_true, Bool.and_eq_true] at h
  obtain ⟨⟨h1, h2⟩, h3⟩ := h
  refine ⟨?_, ?_, ?_⟩
  · rcases List.any_eq_true.mp h1 with ⟨e, he, hdec⟩
    rw [decide_eq_true_iff] at hdec
    have : (t.max.2, t.max.1) = e := (Prod.ext hdec.1 hdec.2).symm
    rw [this]
    exact he
  · intro e he
    exact of_decide_eq_true (List.all_eq_true.mp h2 e he)
  · intro e he
    exact of_decide_eq_true (List.all_eq_true.mp h3 e he)

theorem wfTally_parts {s : State} {h : Nat} {t : Tally}
    (hw : wfTallyB s h t = true) :
    t.votes ≠ [] ∧ keySortedB t.votes = true ∧ MaxInv t ∧
      ∀ v ∈ t.votes, ∃ blk, s.blockOf v.1 = some blk ∧ blk.height = h := by
  rw [wfTallyB, Bool.and_eq_true, Bool.and_eq_true, Bool.and_eq_true] at hw
  obtain ⟨⟨⟨h1, h2⟩, h3⟩, h4⟩ := hw
  refine ⟨?_, h2, maxInv_of_maxInvB h3, ?_⟩
  · intro hnil
    rw [hnil] at h1
    cases h1
  · intro v hv
    have := List.all_eq_true.mp h4 v hv
    cases hblk : s.blockOf v.1 with
    | none => rw [hblk] at this; cases this
    | some blk =>
      rw [hblk] at this
      exact ⟨blk, rfl, of_decide_eq_true this⟩

theorem wfTallies_parts {s : State} {ts : Tallies}
    (hw : wfTalliesB s ts = true) :
    keySortedB ts = true ∧ ∀ e ∈ ts, wfTallyB s e.1 e.2 = true := by
  rw [wfTalliesB, Bool.and_eq_true] at hw
  exact ⟨hw.1, List.all_eq_true.mp hw.2⟩

/-! Lemmas about getTally, maxKey and votesGe. -/

theorem getTally_none {ts : Tallies} {n : Nat} (h : ∀ e ∈ ts, e.1 ≠ n) :
    Tallies.getTally ts n = Option.none := by
  rw [Tallies.getTally, List.find?_eq_none.mpr, Option.map_none']
  intro e he
  simp [h e he]

theorem getTally_eq_of_mem {ts : Tallies} {n : Nat} {t : Tally}
    (hs : keySortedB ts = true) (hm : (n, t) ∈ ts) :
    Tallies.getTally ts n = some t := by
  induction ts with
  | nil => cases hm
  | cons e r ih =>
    rcases List.mem_cons.mp hm with hm | hm
    · rw [← hm, Tallies.getTally]
      rw [List.find?_cons_of_pos _ (by simp)]
      rfl
    · have hlt := keySortedB_head_lt hs (n, t) hm
      rw [Tallies.getTally, List.find?_cons_of_neg _ (by simp; omega)]
      exact ih (keySortedB_tail hs) hm

theorem getTally_mem {ts : Tallies} {n : Nat} {t : Tally}
    (h : Tallies.getTally ts n = some t) : (n, t) ∈ ts := by
  rw [Tallies.getTally] at h
  rcases Option.map_eq_some'.mp h with ⟨e, hfind, he2⟩
  have hp := List.find?_some hfind
  rw [decide_eq_true_iff] at hp
  have hmem := List.mem_of_find?_eq_some hfind
  have : (n, t) = e := (Prod.ext hp he2).symm
  rw [this]
  exact hmem

theorem getLast?_mem {α : Type} : ∀ {l : List α} {a : α},
    l.getLast? = some a → a ∈ l := by
  intro l
  induction l with
  | nil => intro a h; cases h
  | cons e r ih =>
    intro a h
    cases r with
    | nil =>
      have : a = e := by simpa using h.symm
      rw [this]
      exact List.mem_cons_self e []
    | cons e1 r' =>
      rw [List.getLast?_cons_cons] at h
      exact List.mem_cons_of_mem e (ih h)

theorem maxKey_mem {ts : Tallies} {maxh : Nat}
    (h : Tallies.maxKey ts = some maxh) : ∃ t, (maxh, t) ∈ ts := by
  rw [Tallies.maxKey] at h
  rcases Option.map_eq_some'.mp h with ⟨e, hlast, he1⟩
  have hmem := getLast?_mem hlast
  exact ⟨e.2, by rw [← he1, Prod.mk.eta]; exact hmem⟩

theorem maxKey_le {ts : Tallies} {maxh : Nat} (hs : keySortedB ts = true)
    (h : Tallies.maxKey ts = some maxh) : ∀ e ∈ ts, e.1 ≤ maxh := by
  induction ts with
  | nil => intro e he; cases he
  | cons e0 r ih =>
    intro e he
    cases r with
    | nil =>
      rcases List.mem_cons.mp he with he | he
      · rw [Tallies.maxKey] at h
        simp at h
        rw [he, h]
      · cases he
    | cons e1 r' =>
      have hmax : Tallies.maxKey (e0 :: e1 :: r') = Tallies.maxKey (e1 :: r') := by
        rw [Tallies.maxKey, Tallies.maxKey, List.getLast?_cons_cons]
      rw [hmax] at h
      rcases List.mem_cons.mp he with he | he
      · rcases maxKey_mem h with ⟨t, hmem⟩
        have := keySortedB_head_lt hs (maxh, t) hmem
        rw [he]
        omega
      · exact ih (keySortedB_tail hs) h e he

theorem votesGe_nil (m : Nat) : votesGe [] m = [] := rfl

theorem votesGe_cons (e : Nat × Tally) (r : Tallies) (m : Nat) :
    votesGe (e :: r) m =
      if m ≤ e.1 then e.2.votes ++ votesGe r m else votesGe r m := by
  rw [votesGe, List.filter_cons]
  by_cases h : m ≤ e.1
  · rw [if_pos (decide_eq_true h), if_pos h, List.flatMap_cons]
    rfl
  · rw [if_neg (by simpa using h), if_neg h]
    rfl

theorem votesGe_empty {ts : Tallies} {m : Nat} (h : ∀ e ∈ ts, e.1 < m) :
    votesGe ts m = [] := by
  induction ts with
  | nil => rfl
  | cons e r ih =>
    rw [votesGe_cons, if_neg (by have := h e (List.mem_cons_self e r); omega)]
    exact ih (fun e' he' => h e' (List.mem_cons_of_mem e he'))

theorem votesGe_congr {ts : Tallies} {m m' : Nat}
    (h : ∀ e ∈ ts, (m ≤ e.1 ↔ m' ≤ e.1)) : votesGe ts m = votesGe ts m' := by
  induction ts with
  | nil => rfl
  | cons e r ih =>
    have hr := ih (fun e' he' => h e' (List.mem_cons_of_mem e he'))
    rw [votesGe_cons, votesGe_cons, hr]
    by_cases hm : m ≤ e.1
    · rw [if_pos hm, if_pos ((h e (List.mem_cons_self e r)).mp hm)]
    · rw [if_neg hm, if_neg (fun hh => hm ((h e (List.mem_cons_self e r)).mpr hh))]

theorem votesGe_split {ts : Tallies} (hs : keySortedB ts = true) (n : Nat) :
    votesGe ts n = votesAt ts n ++ votesGe ts (n + 1) := by
  induction ts with
  | nil => rfl
  | cons e r ih =>
    rcases Nat.lt_trichotomy e.1 n with hlt | heq | hgt
    · rw [votesGe_cons, if_neg (by omega), votesGe_cons, if_neg (by omega)]
      have : votesAt (e :: r) n = votesAt r n := by
        rw [votesAt, votesAt, Tallies.getTally,
          List.find?_cons_of_neg _ (by simp; omega)]
        rfl
      rw [this]
      exact ih (keySortedB_tail hs)
    · have hall : ∀ e' ∈ r, n < e'.1 := by
        intro e' he'
        have := keySortedB_head_lt hs e' he'
        omega
      rw [votesGe_cons, if_pos (by omega), votesGe_cons, if_neg (by omega)]
      have h1 : votesGe r n = votesGe r (n + 1) :=
        votesGe_congr (fun e' he' => by have := hall e' he'; omega)
      have h2 : votesAt (e :: r) n = e.2.votes := by
        rw [votesAt, Tallies.getTally, List.find?_cons_of_pos _ (by simp [heq])]
        rfl
      rw [h1, h2]
    · have hall : ∀ e' ∈ e :: r, n < e'.1 := by
        intro e' he'
        rcases List.mem_cons.mp he' with he' | he'
        · rw [he']; omega
        · have := keySortedB_head_lt hs e' he'
          omega
      have h1 : votesGe (e :: r) n = votesGe (e :: r) (n + 1) :=
        votesGe_congr (fun e' he' => by have := hall e' he'; omega)
      have h2 : votesAt (e :: r) n = [] := by
        rw [votesAt, getTally_none (fun e' he' => by have := hall e' he'; omega)]
      rw [h1, h2, List.nil_append]

theorem ancSum_append (s : State) (h c : Nat) (l1 l2 : List (Nat × Nat)) :
    ancSum s h c (l1 ++ l2) = ancSum s h c l1 + ancSum s h c l2 :=
  entrySum_append _ l1 l2

theorem ancSum_self_height {s : State} {l : List (Nat × Nat)} {h c : Nat}
    (hk : ∀ e ∈ l, ∃ blk, s.blockOf e.1 = some blk ∧ blk.height = h) :
    ancSum s h c l = keySum c l := by
  apply entrySum_congr
  intro e he
  rcases hk e he with ⟨blk, hblk, hh⟩
  have hself : s.findAncestor e.1 h = some (some e.1) := by
    rw [← hh]
    exact findAncestor_self hblk
  by_cases hec : e.1 = c
  · rw [decide_eq_true (by rw [hself, hec]), decide_eq_true hec]
  · rw [decide_eq_false ?_, decide_eq_false hec]
    rw [hself]
    intro hcon
    exact hec (Option.some.inj (Option.some.inj hcon))

theorem ancSum_low {s : State} {l : List (Nat × Nat)} {n c : Nat}
    (hk : ∀ e ∈ l, ∃ blk, s.blockOf e.1 = some blk ∧ blk.height < n) :
    ancSum s n c l = 0 := by
  apply entrySum_eq_zero
  intro e he
  rcases hk e he with ⟨blk, hblk, hh⟩
  rw [decide_eq_false ?_]
  rw [findAncestor_above hblk hh]
  intro hcon
  cases hcon

theorem keySum_eq_vmGet {v : List (Nat × Nat)} (hs : keySortedB v = true)
    (c : Nat) : keySum c v = vmGet v c := by
  induction v with
  | nil => rfl
  | cons e r ih =>
    rw [keySum_cons, vmGet_cons, ih (keySortedB_tail hs)]
    by_cases h : e.1 = c
    · have hz : vmGet r c = 0 := by
        apply vmGet_eq_zero_of_forall_lt
        intro e' he'
        have := keySortedB_head_lt hs e' he'
        omega
      rw [if_pos h, if_pos h, hz]
      omega
    · rw [if_neg h, if_neg h]
      omega

theorem repWeight_eq_votesGe {s : State} {ts : Tallies} {n c : Nat}
    (hk : ∀ e ∈ ts, ∀ v ∈ e.2.votes, ∃ blk, s.blockOf v.1 = some blk ∧
      blk.height = e.1) :
    repWeight s ts n c = ancSum s n c (votesGe ts n) := by
  induction ts with
  | nil => rfl
  | cons e r ih =>
    have hr := ih (fun e' he' => hk e' (List.mem_cons_of_mem e he'))
    rw [repWeight, allVotes, List.flatMap_cons, ancSum_append, votesGe_cons]
    have hrw : ancSum s n c (r.flatMap fun e => e.2.votes) =
        ancSum s n c (votesGe r n) := hr
    by_cases hm : n ≤ e.1
    · rw [if_pos hm, ancSum_append, hrw]
    · rw [if_neg hm, hrw]
      have hz : ancSum s n c e.2.votes = 0 := by
        apply ancSum_low
        intro v hv
        rcases hk e (List.mem_cons_self e r) v hv with ⟨blk, hblk, hh⟩
        exact ⟨blk, hblk, by omega⟩
      omega

/-! The find_decided loop invariant and its preservation. -/

theorem mem_votesGe {ts : Tallies} {m : Nat} {e : Nat × Nat}
    (h : e ∈ votesGe ts m) : ∃ et, et ∈ ts ∧ m ≤ et.1 ∧ e ∈ et.2.votes := by
  rw [votesGe] at h
  rcases List.mem_flatMap.mp h with ⟨et, hmem, hin⟩
  rcases List.mem_filter.mp hmem with ⟨hts, hdec⟩
  exact ⟨et, hts, of_decide_eq_true hdec, hin⟩

theorem mem_allVotes {ts : Tallies} {e : Nat × Nat}
    (h : e ∈ allVotes ts) : ∃ et, et ∈ ts ∧ e ∈ et.2.votes := by
  rw [allVotes] at h
  rcases List.mem_flatMap.mp h with ⟨et, hmem, hin⟩
  exact ⟨et, hmem, hin⟩

theorem wfTallies_keyBlocks {s : State} {ts : Tallies}
    (hwt : wfTalliesB s ts = true) :
    ∀ et ∈ ts, ∀ v ∈ et.2.votes, ∃ blk, s.blockOf v.1 = some blk ∧
      blk.height = et.1 :=
  fun et he v hv => (wfTally_parts ((wfTallies_parts hwt).2 et he)).2.2.2 v hv

theorem findAncestor_parent {s : State} {b : Nat} {blk : Block} {q : Nat}
    {qblk : Block} {t : Nat} (hb : s.blockOf b = some blk)
    (hh : blk.height = t + 1) (hq : blk.parent = some q)
    (hqb : s.blockOf q = some qblk) (hqh : qblk.height = t) :
    s.findAncestor b t = some (some q) := by
  simp only [State.findAncestor, hb, hh]
  simp only [faFuel, hb]
  rw [if_neg (by omega), if_neg (by omega)]
  simp only [hq]
  exact faFuel_at_height hqb hqh t

theorem fdStep_parents {s : State} {ts : Tallies} {n : Nat} {prev : Tally}
    (hwf : wfStateB s = true) (hwt : wfTalliesB s ts = true)
    (hinv : FdInv s ts (n + 1) prev) :
    ∃ hp, prev.parents s = some hp ∧ TallyInv hp ∧
      (∀ e ∈ hp.votes, ∃ blk, s.blockOf e.1 = some blk ∧ blk.height = n) ∧
      (∀ c, vmGet hp.votes c = ancSum s n c (votesGe ts (n + 1))) := by
  obtain ⟨⟨hsor, hne, hmax⟩, hkeys, hget⟩ := hinv
  have hpar : ∀ e ∈ prev.votes, ∃ blk p, s.blockOf e.1 = some blk ∧
      blk.parent = some p := by
    intro e he
    rcases hkeys e he with ⟨blk, hblk, hh⟩
    rcases wfState_parent hwf hblk (by omega) with ⟨p, pblk, hp1, hp2, hp3⟩
    exact ⟨blk, p, hblk, hp1⟩
  rcases parentPairs_some hpar with ⟨l', hl', hw, hnil, hkl⟩
  have hl'ne : l' ≠ [] := fun hh => hne (hnil.mpr hh)
  rcases tryFromIter_ne_nil hl'ne with ⟨hp, hhp⟩
  refine ⟨hp, ?_, tallyInv_tryFromIter hhp, ?_, ?_⟩
  · rw [Tally.parents]
    simp only [hl']
    exact hhp
  · intro e he
    have hmapmem := keys_tryFromIter hhp he
    rcases List.mem_map.mp hmapmem with ⟨e2, he2, heq⟩
    rcases hkl e2 he2 with ⟨e0, blk, he0, hblk, hpare⟩
    rcases hkeys e0 he0 with ⟨blk', hblk', hh'⟩
    have hbe : blk = blk' := by
      rw [hblk] at hblk'
      exact Option.some.inj hblk'
    rcases wfState_parent hwf hblk' (by omega) with ⟨p, pblk, hp1, hp2, hp3⟩
    have hpe : p = e.1 := by
      rw [hbe, hp1] at hpare
      rw [← heq]
      exact Option.some.inj hpare
    exact ⟨pblk, by rw [← hpe]; exact hp2, by omega⟩
  · intro c
    rw [vmGet_tryFromIter hhp c, keySum_parentPairs hl' c]
    apply regroup hsor hget
    · intro e he
      rcases mem_votesGe he with ⟨et, hts, hmle, hin⟩
      rcases wfTallies_keyBlocks hwt et hts e hin with ⟨blk, hblk, hh⟩
      rcases findAncestor_success (t := n + 1) hwf hblk (by omega) with
        ⟨a, ablk, hfa, _, _⟩
      exact ⟨a, hfa⟩
    · intro e he d hd
      rcases mem_votesGe he with ⟨et, hts, hmle, hin⟩
      rcases wfTallies_keyBlocks hwt et hts e hin with ⟨blk, hblk, hh⟩
      rcases findAncestor_step hwf hblk hd with ⟨dblk, hdblk, hdh, hstep⟩
      constructor
      · intro hlo
        rcases wfState_parent hwf hdblk (by omega) with ⟨q, qblk, hq1, hq2, hq3⟩
        have := hstep q hq1
        rw [hlo] at this
        have hcq : c = q := Option.some.inj (Option.some.inj this)
        rw [State.parentOf]
        simp only [hdblk]
        rw [hq1, hcq]
      · intro hpd
        rw [State.parentOf] at hpd
        simp only [hdblk] at hpd
        exact hstep c hpd

theorem fdStep_hTally {s : State} {ts : Tallies} {n : Nat} {hp : Tally}
    (hwt : wfTalliesB s ts = true) (h1 : TallyInv hp)
    (h2 : ∀ e ∈ hp.votes, ∃ blk, s.blockOf e.1 = some blk ∧ blk.height = n)
    (h3 : ∀ c, vmGet hp.votes c = ancSum s n c (votesGe ts (n + 1))) :
    FdInv s ts n (Tallies.hTallyAt ts n hp) := by
  have hsplit := votesGe_split (wfTallies_parts hwt).1 n
  cases hgt : Tallies.getTally ts n with
  | none =>
    have hTA : Tallies.hTallyAt ts n hp = hp := by
      rw [Tallies.hTallyAt]
      simp only [hgt]
    rw [hTA]
    refine ⟨h1, h2, ?_⟩
    intro c
    have hva : votesAt ts n = [] := by
      rw [votesAt]
      simp only [hgt]
    rw [hsplit, hva, List.nil_append]
    exact h3 c
  | some t =>
    have hTA : Tallies.hTallyAt ts n hp = hp.extend t.votes := by
      rw [Tallies.hTallyAt]
      simp only [hgt]
    rw [hTA]
    have hmem : (n, t) ∈ ts := getTally_mem hgt
    have hkt : ∀ v ∈ t.votes, ∃ blk, s.blockOf v.1 = some blk ∧ blk.height = n :=
      wfTallies_keyBlocks hwt (n, t) hmem
    refine ⟨tallyInv_extend h1 t.votes, ?_, ?_⟩
    · intro e he
      rcases mem_extend_keys he with hk | hk
      · rcases List.mem_map.mp hk with ⟨e2, he2, heq⟩
        rcases h2 e2 he2 with ⟨blk, hblk, hh⟩
        exact ⟨blk, heq ▸ hblk, hh⟩
      · rcases List.mem_map.mp hk with ⟨e2, he2, heq⟩
        rcases hkt e2 he2 with ⟨blk, hblk, hh⟩
        exact ⟨blk, heq ▸ hblk, hh⟩
    · intro c
      have hva : votesAt ts n = t.votes := by
        rw [votesAt]
        simp only [hgt]
      rw [vmGet_extend h1.1 t.votes c, h3 c, hsplit, hva, ancSum_append,
        ancSum_self_height hkt]
      omega

theorem fdInit {s : State} {ts : Tallies} {maxh : Nat} {prev : Tally}
    (hwt : wfTalliesB s ts = true) (hmk : Tallies.maxKey ts = some maxh)
    (hgt : Tallies.getTally ts maxh = some prev) :
    FdInv s ts maxh prev := by
  have hsorted := (wfTallies_parts hwt).1
  have hmem : (maxh, prev) ∈ ts := getTally_mem hgt
  rcases wfTally_parts ((wfTallies_parts hwt).2 (maxh, prev) hmem) with
    ⟨hne, hsv, hmax, hkeys⟩
  refine ⟨⟨hsv, hne, hmax⟩, hkeys, ?_⟩
  intro c
  have hempty : votesGe ts (maxh + 1) = [] :=
    votesGe_empty (fun e he => by have := maxKey_le hsorted hmk e he; omega)
  have hva : votesAt ts maxh = prev.votes := by
    rw [votesAt]
    simp only [hgt]
  rw [votesGe_split hsorted maxh, hempty, hva, List.append_nil,
    ancSum_self_height hkeys, keySum_eq_vmGet hsv]

theorem fdLoop_succ_eq {s : State} {ts : Tallies} {total n : Nat}
    {prev hp : Tally} (hA : prev.parents s = some hp) :
    Tallies.fdLoop s ts total (n + 1) prev =
      if total < 2 * (Tallies.hTallyAt ts n hp).max_w then
        match prev.filterOpt n (Tallies.hTallyAt ts n hp).max_bhash s with
        | Option.none => Option.none
        | some (some filtered) => some (some (n + 1, filtered.max_bhash))
        | some Option.none => some (some (n, (Tallies.hTallyAt ts n hp).max_bhash))
      else Tallies.fdLoop s ts total n (Tallies.hTallyAt ts n hp) := by
  rw [Tallies.fdLoop]
  simp only [hA]

theorem filterOpt_eq {t : Tally} {height bhash : Nat} {s : State}
    (hall : ∀ e ∈ t.votes, (s.findAncestor e.1 height).isSome = true) :
    Tally.filterOpt t height bhash s = some (Tally.tryFromIter
      (t.votes.filter
        (fun e => decide (s.findAncestor e.1 height = some (some bhash))))) := by
  rw [Tally.filterOpt, if_pos (List.all_eq_true.mpr hall)]

theorem fdLoop_spec {s : State} {ts : Tallies} (hwf : wfStateB s = true)
    (hwt : wfTalliesB s ts = true) :
    ∀ (m : Nat) (prev : Tally), FdInv s ts m prev →
      ∃ h b,
        Tallies.fdLoop s ts (Tallies.weightSum ts) m prev = some (some (h, b)) ∧
        h ≤ m ∧
        (1 ≤ h → ∃ a, s.findAncestor b (h - 1) = some (some a) ∧
          Tallies.weightSum ts < 2 * repWeight s ts (h - 1) a) := by
  intro m
  induction m with
  | zero =>
    intro prev hinv
    exact ⟨0, prev.max_bhash, rfl, Nat.le_refl 0, fun h => absurd h (by omega)⟩
  | succ n ih =>
    intro prev hinv
    obtain ⟨hPI, hPkeys, hPget⟩ := hinv
    rcases fdStep_parents hwf hwt ⟨hPI, hPkeys, hPget⟩ with ⟨hp, hA, hI1, hI2, hI3⟩
    have hFd : FdInv s ts n (Tallies.hTallyAt ts n hp) :=
      fdStep_hTally hwt hI1 hI2 hI3
    rw [fdLoop_succ_eq hA]
    set ht := Tallies.hTallyAt ts n hp with hht
    obtain ⟨hTI, hKeys, hGet⟩ := hFd
    by_cases hmaj : Tallies.weightSum ts < 2 * ht.max_w
    · rw [if_pos hmaj]
      have hmemb : (ht.max_bhash, ht.max_w) ∈ ht.votes := hTI.2.2.1
      have hvm : vmGet ht.votes ht.max_bhash = ht.max_w :=
        vmGet_eq_of_mem hTI.1 hmemb
      rcases hKeys (ht.max_bhash, ht.max_w) hmemb with ⟨blk, hblk, hh⟩
      have hrep : repWeight s ts n ht.max_bhash = ht.max_w := by
        rw [repWeight_eq_votesGe (wfTallies_keyBlocks hwt), ← hGet ht.max_bhash]
        exact hvm
      have hall : ∀ e ∈ prev.votes, (s.findAncestor e.1 n).isSome = true := by
        intro e he
        rcases hPkeys e he with ⟨eblk, heblk, hehh⟩
        exact findAncestor_isSome hwf heblk n
      rw [filterOpt_eq hall]
      set kept := prev.votes.filter
        (fun e => decide (s.findAncestor e.1 n = some (some ht.max_bhash)))
        with hkept
      cases hk : Tally.tryFromIter kept with
      | none =>
        refine ⟨n, ht.max_bhash, ?_, by omega, ?_⟩
        · simp only [hk]
        · intro h1n
          obtain ⟨k, rfl⟩ : ∃ k, n = k + 1 := ⟨n - 1, by omega⟩
          rcases wfState_parent hwf hblk (by omega) with ⟨q, qblk, hq1, hq2, hq3⟩
          refine ⟨q, ?_, ?_⟩
          · simp only [Nat.add_sub_cancel]
            exact findAncestor_parent hblk (by omega) hq1 hq2 (by omega)
          · simp only [Nat.add_sub_cancel]
            have hmono : repWeight s ts (k + 1) ht.max_bhash ≤
                repWeight s ts k q := by
              apply entrySum_le_of_imp
              intro e he hp'
              rcases mem_allVotes he with ⟨et, hts2, hin⟩
              rcases wfTallies_keyBlocks hwt et hts2 e hin with ⟨eblk, heblk, hehh⟩
              rw [decide_eq_true_iff] at hp'
              rcases findAncestor_step hwf heblk hp' with ⟨cblk, hcblk, hch, hstep⟩
              have hcb : cblk = blk := by
                rw [hcblk] at hblk
                exact Option.some.inj hblk
              rw [decide_eq_true_iff]
              apply hstep q
              rw [hcb]
              exact hq1
            have h2 : Tallies.weightSum ts < 2 * repWeight s ts (k + 1) ht.max_bhash := by
              rw [hrep]
              exact hmaj
            omega
      | some ft =>
        refine ⟨n + 1, ft.max_bhash, ?_, Nat.le_refl _, ?_⟩
        · simp only [hk]
        · intro _
          refine ⟨ht.max_bhash, ?_, ?_⟩
          · simp only [Nat.add_sub_cancel]
            have hmemf : (ft.max_bhash, ft.max_w) ∈ ft.votes :=
              (tallyInv_tryFromIter hk).2.2.1
            have hmapf := keys_tryFromIter hk hmemf
            rcases List.mem_map.mp hmapf with ⟨e2, he2, heq⟩
            rw [hkept] at he2
            have hpred := (List.mem_filter.mp he2).2
            rw [decide_eq_true_iff] at hpred
            have heq' : e2.1 = ft.max_bhash := heq
            show s.findAncestor ft.max_bhash n = some (some ht.max_bhash)
            rw [← heq']
            exact hpred
          · simp only [Nat.add_sub_cancel]
            rw [hrep]
            exact hmaj
    · rw [if_neg hmaj]
      rcases ih ht ⟨hTI, hKeys, hGet⟩ with ⟨h, b, hres, hle, hmajc⟩
      exact ⟨h, b, hres, by omega, hmajc⟩

theorem getLast?_ne_nil {α : Type} : ∀ {l : List α}, l ≠ [] →
    ∃ a, l.getLast? = some a := by
  intro l
  induction l with
  | nil => intro h; exact absurd rfl h
  | cons e r ih =>
    intro _
    cases r with
    | nil => exact ⟨e, rfl⟩
    | cons e1 r' =>
      rcases ih (by simp) with ⟨a, ha⟩
      exact ⟨a, by rw [List.getLast?_cons_cons]; exact ha⟩

theorem findDecided_spec {s : State} {ts : Tallies} (hwf : wfStateB s = true)
    (hwt : wfTalliesB s ts = true) (hne : ts ≠ []) :
    ∃ h b, Tallies.findDecided ts s = some (some (h, b)) ∧
      (1 ≤ h → ∃ a, s.findAncestor b (h - 1) = some (some a) ∧
        Tallies.weightSum ts < 2 * repWeight s ts (h - 1) a) := by
  rcases getLast?_ne_nil hne with ⟨e, hlast⟩
  have hmk : Tallies.maxKey ts = some e.1 := by
    rw [Tallies.maxKey, hlast]
    rfl
  rcases maxKey_mem hmk with ⟨t, hmem⟩
  have hgt : Tallies.getTally ts e.1 = some t :=
    getTally_eq_of_mem (wfTallies_parts hwt).1 hmem
  have hinit := fdInit hwt hmk hgt
  rcases fdLoop_spec hwf hwt e.1 t hinit with ⟨h, b, hres, hle, hmaj⟩
  refine ⟨h, b, ?_, hmaj⟩
  rw [Tallies.findDecided]
  simp only [hmk, hgt]
  exact hres

theorem fdLoop_ne_some_none {s : State} {ts : Tallies} {total : Nat} :
    ∀ (m : Nat) (prev : Tally),
      Tallies.fdLoop s ts total m prev ≠ some Option.none := by
  intro m
  induction m with
  | zero =>
    intro prev h
    rw [Tallies.fdLoop] at h
    cases Option.some.inj h
  | succ n ih =>
    intro prev h
    rw [Tallies.fdLoop] at h
    cases hA : prev.parents s with
    | none => simp only [hA] at h; cases h
    | some hp =>
      simp only [hA] at h
      split at h
      · split at h
        · cases h
        · cases Option.some.inj h
        · cases Option.some.inj h
      · exact ih _ h

theorem fdLoop_height_le {s : State} {ts : Tallies} {total : Nat} :
    ∀ (m : Nat) (prev : Tally) (h b : Nat),
      Tallies.fdLoop s ts total m prev = some (some (h, b)) → h ≤ m := by
  intro m
  induction m with
  | zero =>
    intro prev h b hres
    rw [Tallies.fdLoop] at hres
    have h1 := Option.some.inj (Option.some.inj hres)
    injection h1 with h1a h1b
    omega
  | succ n ih =>
    intro prev h b hres
    rw [Tallies.fdLoop] at hres
    cases hA : prev.parents s with
    | none => simp only [hA] at hres; cases hres
    | some hp =>
      simp only [hA] at hres
      split at hres
      · split at hres
        · cases hres
        · have h1 := Option.some.inj (Option.some.inj hres)
          injection h1 with h1a h1b
          omega
        · have h1 := Option.some.inj (Option.some.inj hres)
          injection h1 with h1a h1b
          omega
      · have := ih _ _ _ hres
        omega

theorem maxKey_none_iff {ts : Tallies} :
    Tallies.maxKey ts = Option.none ↔ ts = [] := by
  constructor
  · intro h
    by_contra hne
    rcases getLast?_ne_nil hne with ⟨e, hlast⟩
    rw [Tallies.maxKey, hlast] at h
    cases h
  · intro h
    rw [h]
    rfl

theorem findDecided_some_none_iff {s : State} {ts : Tallies} :
    Tallies.findDecided ts s = some Option.none ↔ ts = [] := by
  constructor
  · intro h
    rw [Tallies.findDecided] at h
    cases hmk : Tallies.maxKey ts with
    | none => exact maxKey_none_iff.mp hmk
    | some maxh =>
      simp only [hmk] at h
      cases hgt : Tallies.getTally ts maxh with
      | none => simp only [hgt] at h; cases h
      | some prev =>
        simp only [hgt] at h
        exact absurd h (fdLoop_ne_some_none maxh prev)
  · intro h
    rw [h]
    rfl

theorem findDecided_height_le {s : State} {ts : Tallies} {h b : Nat}
    (hres : Tallies.findDecided ts s = some (some (h, b))) :
    ∃ maxh, Tallies.maxKey ts = some maxh ∧ h ≤ maxh := by
  rw [Tallies.findDecided] at hres
  cases hmk : Tallies.maxKey ts with
  | none =>
    simp only [hmk] at hres
    cases Option.some.inj hres
  | some maxh =>
    simp only [hmk] at hres
    cases hgt : Tallies.getTally ts maxh with
    | none => simp only [hgt] at hres; cases hres
    | some prev =>
      simp only [hgt] at hres
      exact ⟨maxh, rfl, fdLoop_height_le maxh prev h b hres⟩

/-! Weight conservation of Tally::parents. -/

theorem parents_weight {s : State} {t : Tally} {hl : Nat}
    (hwf : wfStateB s = true) (hne : t.votes ≠ [])
    (hkeys : ∀ e ∈ t.votes, ∃ blk, s.blockOf e.1 = some blk ∧ blk.height = hl)
    (hpos : 0 < hl) :
    ∃ t', t.parents s = some t' ∧ t'.weight = t.weight := by
  have hpar : ∀ e ∈ t.votes, ∃ blk p, s.blockOf e.1 = some blk ∧
      blk.parent = some p := by
    intro e he
    rcases hkeys e he with ⟨blk, hblk, hh⟩
    rcases wfState_parent hwf hblk (by omega) with ⟨p, pblk, hp1, hp2, hp3⟩
    exact ⟨blk, p, hblk, hp1⟩
  rcases parentPairs_some hpar with ⟨l', hl', hw, hnil, hkl⟩
  have hl'ne : l' ≠ [] := fun hh => hne (hnil.mpr hh)
  rcases tryFromIter_ne_nil hl'ne with ⟨t', ht'⟩
  refine ⟨t', ?_, ?_⟩
  · rw [Tally.parents]
    simp only [hl']
    exact ht'
  · rw [weight_tryFromIter ht', hw]
    rfl

/-! Commutativity of add, and insertion-order independence of fromIter. -/

theorem lexMax_comm (p q : Nat × Nat) : lexMax p q = lexMax q p := by
  rw [lexMax, lexMax]
  split_ifs <;> first | rfl | (rw [Prod.ext_iff]; omega)

theorem lexMax_left_comm (a b m : Nat × Nat) :
    lexMax a (lexMax b m) = lexMax b (lexMax a m) := by
  simp only [lexMax]
  split_ifs <;> first | rfl | (rw [Prod.ext_iff]; omega)

theorem lexMax_absorb {p q : Nat × Nat} (m : Nat × Nat)
    (h : q.1 < p.1 ∨ (q.1 = p.1 ∧ q.2 ≤ p.2)) :
    lexMax p (lexMax q m) = lexMax p m := by
  simp only [lexMax]
  split_ifs <;> first | rfl | (rw [Prod.ext_iff]; omega)

theorem sortedExt : ∀ {v v' : List (Nat × Nat)}, keySortedB v = true →
    keySortedB v' = true → (∀ e, e ∈ v ↔ e ∈ v') → v = v' := by
  intro v
  induction v with
  | nil =>
    intro v' _ _ hmem
    cases v' with
    | nil => rfl
    | cons e' r' => exact absurd ((hmem e').mpr (List.mem_cons_self e' r')) (by simp)
  | cons e r ih =>
    intro v' hs hs' hmem
    cases v' with
    | nil => exact absurd ((hmem e).mp (List.mem_cons_self e r)) (by simp)
    | cons e' r' =>
      have hee' : e = e' := by
        have h1 : e ∈ e' :: r' := (hmem e).mp (List.mem_cons_self e r)
        have h2 : e' ∈ e :: r := (hmem e').mpr (List.mem_cons_self e' r')
        rcases List.mem_cons.mp h1 with h1 | h1
        · exact h1
        · rcases List.mem_cons.mp h2 with h2 | h2
          · exact h2.symm
          · have := keySortedB_head_lt hs' e h1
            have := keySortedB_head_lt hs e' h2
            omega
      subst hee'
      have htails : ∀ x, x ∈ r ↔ x ∈ r' := by
        intro x
        constructor
        · intro hx
          have hlt := keySortedB_head_lt hs x hx
          rcases List.mem_cons.mp ((hmem x).mp (List.mem_cons_of_mem e hx)) with
            h | h
          · rw [h] at hlt; omega
          · exact h
        · intro hx
          have hlt := keySortedB_head_lt hs' x hx
          rcases List.mem_cons.mp ((hmem x).mpr (List.mem_cons_of_mem e hx)) with
            h | h
          · rw [h] at hlt; omega
          · exact h
      rw [ih (keySortedB_tail hs) (keySortedB_tail hs') htails]

theorem mem_addEntry_iff {v : List (Nat × Nat)} (hs : keySortedB v = true)
    {b w : Nat} {e' : Nat × Nat} :
    e' ∈ addEntry v b w ↔ ((e' ∈ v ∧ e'.1 ≠ b) ∨ e' = (b, vmGet v b + w)) := by
  constructor
  · exact mem_addEntry_cases hs
  · intro h
    rcases h with ⟨hm, hne⟩ | h
    · exact mem_addEntry_of_ne hm hne
    · rw [h]
      exact self_mem_addEntry hs b w

theorem addEntry_comm {v : List (Nat × Nat)} (hs : keySortedB v = true)
    (b1 w1 b2 w2 : Nat) :
    addEntry (addEntry v b1 w1) b2 w2 = addEntry (addEntry v b2 w2) b1 w1 := by
  have hs1 := addEntry_sorted hs b1 w1
  have hs2 := addEntry_sorted hs b2 w2
  apply sortedExt (addEntry_sorted hs1 b2 w2) (addEntry_sorted hs2 b1 w1)
  intro e
  rw [mem_addEntry_iff hs1, mem_addEntry_iff hs2, mem_addEntry_iff hs,
    mem_addEntry_iff hs, vmGet_addEntry hs b1 w1 b2, vmGet_addEntry hs b2 w2 b1]
  by_cases h12 : b1 = b2
  · subst h12
    rw [if_pos rfl, if_pos rfl]
    constructor
    · intro h
      rcases h with ⟨⟨hm, hne⟩ | he, hne2⟩ | he
      · exact Or.inl ⟨Or.inl ⟨hm, hne⟩, hne2⟩
      · rw [he] at hne2
        exact absurd rfl hne2
      · right
        rw [he, Prod.ext_iff]
        constructor
        · rfl
        · show vmGet v b1 + w1 + w2 = vmGet v b1 + w2 + w1
          omega
    · intro h
      rcases h with ⟨⟨hm, hne⟩ | he, hne2⟩ | he
      · exact Or.inl ⟨Or.inl ⟨hm, hne⟩, hne2⟩
      · rw [he] at hne2
        exact absurd rfl hne2
      · right
        rw [he, Prod.ext_iff]
        constructor
        · rfl
        · show vmGet v b1 + w2 + w1 = vmGet v b1 + w1 + w2
          omega
  · rw [if_neg (fun hh => h12 hh.symm), if_neg h12, Nat.add_zero, Nat.add_zero]
    constructor
    · intro h
      rcases h with ⟨⟨hm, hne⟩ | he, hne2⟩ | he
      · exact Or.inl ⟨Or.inl ⟨hm, hne2⟩, hne⟩
      · right
        exact he
      · left
        constructor
        · right
          exact he
        · rw [he]
          show b2 ≠ b1
          exact fun hh => h12 hh.symm
    · intro h
      rcases h with ⟨⟨hm, hne⟩ | he, hne2⟩ | he
      · exact Or.inl ⟨Or.inl ⟨hm, hne2⟩, hne⟩
      · right
        exact he
      · left
        constructor
        · right
          exact he
        · rw [he]
          show b1 ≠ b2
          exact h12

theorem tally_ext {x y : Tally} (h1 : x.max = y.max) (h2 : x.votes = y.votes) :
    x = y := by
  cases x
  cases y
  simp_all

theorem tallyAdd_comm {t : Tally} (hs : keySortedB t.votes = true)
    (b1 w1 b2 w2 : Nat) :
    (t.add b1 w1).add b2 w2 = (t.add b2 w2).add b1 w1 := by
  apply tally_ext
  · rw [max_add, max_add, max_add, max_add, votes_add, votes_add]
    rw [vmGet_addEntry hs b1 w1 b2, vmGet_addEntry hs b2 w2 b1]
    by_cases h12 : b1 = b2
    · subst h12
      rw [if_pos rfl, if_pos rfl]
      rw [lexMax_absorb t.max (by show vmGet t.votes b1 + w1 < _ ∨ _; omega)]
      rw [lexMax_absorb t.max (by show vmGet t.votes b1 + w2 < _ ∨ _; omega)]
      have hw : vmGet t.votes b1 + w1 + w2 = vmGet t.votes b1 + w2 + w1 := by
        omega
      rw [hw]
    · rw [if_neg (fun hh => h12 hh.symm), if_neg h12, Nat.add_zero, Nat.add_zero]
      exact lexMax_left_comm _ _ _
  · rw [votes_add, votes_add, votes_add, votes_add]
    exact addEntry_comm hs b1 w1 b2 w2

theorem new_add_comm (b1 w1 b2 w2 : Nat) :
    (Tally.new b1 w1).add b2 w2 = (Tally.new b2 w2).add b1 w1 := by
  apply tally_ext
  · rw [max_add, max_add]
    show lexMax (vmGet [(b1, w1)] b2 + w2, b2) (w1, b1) =
      lexMax (vmGet [(b2, w2)] b1 + w1, b1) (w2, b2)
    rw [vmGet_cons, vmGet_cons, vmGet_nil, vmGet_nil]
    by_cases h12 : b1 = b2
    · subst h12
      rw [if_pos rfl, if_pos rfl]
      simp only [lexMax]
      split_ifs <;> first | rfl | (rw [Prod.ext_iff]; constructor <;> simp <;> omega)
    · rw [if_neg h12, if_neg (fun hh => h12 hh.symm)]
      simp only [Nat.zero_add]
      exact lexMax_comm _ _
  · show addEntry [(b1, w1)] b2 w2 = addEntry [(b2, w2)] b1 w1
    have h1 : addEntry ([] : List (Nat × Nat)) b1 w1 = [(b1, w1)] := rfl
    have h2 : addEntry ([] : List (Nat × Nat)) b2 w2 = [(b2, w2)] := rfl
    rw [← h1, ← h2]
    exact addEntry_comm (v := []) rfl b1 w1 b2 w2

theorem mem_talliesAdd_cases3 {ts : Tallies} {h b w : Nat} {e' : Nat × Tally} :
    e' ∈ Tallies.add ts h b w →
    e' ∈ ts ∨ e' = (h, Tally.new b w) ∨
      ∃ t, (h, t) ∈ ts ∧ e' = (h, t.add b w) := by
  induction ts with
  | nil =>
    intro hm
    rw [Tallies.add] at hm
    rcases List.mem_cons.mp hm with hm | hm
    · exact Or.inr (Or.inl hm)
    · cases hm
  | cons e r ih =>
    intro hm
    rw [Tallies.add] at hm
    split at hm
    · rcases List.mem_cons.mp hm with hm | hm
      · exact Or.inr (Or.inl hm)
      · exact Or.inl hm
    · split at hm
      · rename_i h1 h2
        rcases List.mem_cons.mp hm with hm | hm
        · right; right
          refine ⟨e.2, ?_, ?_⟩
          · rw [h2, Prod.mk.eta]
            exact List.mem_cons_self e r
          · rw [hm, h2]
        · exact Or.inl (List.mem_cons_of_mem e hm)
      · rcases List.mem_cons.mp hm with hm | hm
        · exact Or.inl (hm ▸ List.mem_cons_self e r)
        · rcases ih hm with h' | h' | ⟨t, ht, he⟩
          · exact Or.inl (List.mem_cons_of_mem e h')
          · exact Or.inr (Or.inl h')
          · exact Or.inr (Or.inr ⟨t, List.mem_cons_of_mem e ht, he⟩)

theorem mem_talliesAdd {ts : Tallies} {h b w : Nat} {e' : Nat × Tally}
    (hm : e' ∈ Tallies.add ts h b w) : e' ∈ ts ∨ e'.1 = h := by
  rcases mem_talliesAdd_cases3 hm with h' | h' | ⟨t, _, h'⟩
  · exact Or.inl h'
  · right; rw [h']
  · right; rw [h']

theorem talliesAdd_sorted {ts : Tallies} (hs : keySortedB ts = true)
    (h b w : Nat) : keySortedB (Tallies.add ts h b w) = true := by
  induction ts with
  | nil => rfl
  | cons e r ih =>
    rw [Tallies.add]
    split
    · rename_i hlt
      apply keySortedB_cons_of hs
      intro e' he'
      rcases List.mem_cons.mp he' with he' | he'
      · rw [he']; exact hlt
      · exact lt_trans hlt (keySortedB_head_lt hs e' he')
    · split
      · rename_i h1 h2
        apply keySortedB_cons_of (keySortedB_tail hs)
        intro e' he'
        exact keySortedB_head_lt hs e' he'
      · rename_i h1 h2
        apply keySortedB_cons_of (ih (keySortedB_tail hs))
        intro e' he'
        rcases mem_talliesAdd he' with h' | h'
        · exact keySortedB_head_lt hs e' h'
        · omega

theorem talliesAdd_invS {ts : Tallies} (hinv : TalliesInvS ts) (h b w : Nat) :
    TalliesInvS (Tallies.add ts h b w) := by
  obtain ⟨hs, hvs⟩ := hinv
  refine ⟨talliesAdd_sorted hs h b w, ?_⟩
  intro e' he'
  rcases mem_talliesAdd_cases3 he' with h' | h' | ⟨t, ht, h'⟩
  · exact hvs e' h'
  · rw [h']; rfl
  · rw [h']
    exact addEntry_sorted (hvs (h, t) ht) b w

theorem add_lt_head {ts : Tallies} {h : Nat} (hne : ts ≠ [])
    (hlt : ∀ e ∈ ts, h < e.1) (b w : Nat) :
    Tallies.add ts h b w = (h, Tally.new b w) :: ts := by
  cases ts with
  | nil => exact absurd rfl hne
  | cons e r =>
    rw [Tallies.add, if_pos (hlt e (List.mem_cons_self e r))]

theorem talliesAdd_comm_le : ∀ {ts : Tallies}, TalliesInvS ts →
    ∀ {h1 h2 : Nat}, h1 ≤ h2 → ∀ (b1 w1 b2 w2 : Nat),
      Tallies.add (Tallies.add ts h1 b1 w1) h2 b2 w2 =
      Tallies.add (Tallies.add ts h2 b2 w2) h1 b1 w1 := by
  intro ts
  induction ts with
  | nil =>
    intro _ h1 h2 hle b1 w1 b2 w2
    show Tallies.add [(h1, Tally.new b1 w1)] h2 b2 w2 =
      Tallies.add [(h2, Tally.new b2 w2)] h1 b1 w1
    by_cases heq : h1 = h2
    · subst heq
      rw [Tallies.add, if_neg (by omega), if_pos rfl,
        Tallies.add, if_neg (by omega), if_pos rfl, new_add_comm]
    · have hlt : h1 < h2 := by omega
      have hL : Tallies.add [(h1, Tally.new b1 w1)] h2 b2 w2 =
          [(h1, Tally.new b1 w1), (h2, Tally.new b2 w2)] := by
        rw [Tallies.add, if_neg (by omega), if_neg (by omega)]
        rfl
      have hR : Tallies.add [(h2, Tally.new b2 w2)] h1 b1 w1 =
          [(h1, Tally.new b1 w1), (h2, Tally.new b2 w2)] := by
        rw [Tallies.add, if_pos hlt]
      rw [hL, hR]
  | cons e r ih =>
    intro hinv h1 h2 hle b1 w1 b2 w2
    obtain ⟨hs, hvs⟩ := hinv
    have hinvr : TalliesInvS r :=
      ⟨keySortedB_tail hs, fun e' he' => hvs e' (List.mem_cons_of_mem e he')⟩
    rcases Nat.lt_trichotomy h1 e.1 with hc | hc | hc
    · by_cases heq : h1 = h2
      · subst heq
        have hI : Tallies.add (e :: r) h1 b1 w1 = (h1, Tally.new b1 w1) :: e :: r := by
          rw [Tallies.add, if_pos hc]
        have hI2 : Tallies.add (e :: r) h1 b2 w2 = (h1, Tally.new b2 w2) :: e :: r := by
          rw [Tallies.add, if_pos hc]
        rw [hI, hI2, Tallies.add, if_neg (by omega), if_pos rfl,
          Tallies.add, if_neg (by omega), if_pos rfl, new_add_comm]
      · have hlt : h1 < h2 := by omega
        have hI : Tallies.add (e :: r) h1 b1 w1 = (h1, Tally.new b1 w1) :: e :: r := by
          rw [Tallies.add, if_pos hc]
        rw [hI, Tallies.add, if_neg (by omega), if_neg (by omega)]
        have hall : ∀ e' ∈ Tallies.add (e :: r) h2 b2 w2, h1 < e'.1 := by
          intro e' he'
          rcases mem_talliesAdd he' with h' | h'
          · rcases List.mem_cons.mp h' with h' | h'
            · rw [h']; omega
            · have := keySortedB_head_lt hs e' h'
              omega
          · omega
        rw [add_lt_head ?_ hall b1 w1]
        intro hnil
        rw [Tallies.add] at hnil
        split at hnil
        · cases hnil
        · split at hnil
          · cases hnil
          · cases hnil
    · by_cases heq : h2 = e.1
      · have hI : Tallies.add (e :: r) h1 b1 w1 = (e.1, e.2.add b1 w1) :: r := by
          rw [Tallies.add, if_neg (by omega), if_pos hc]
        have hI2 : Tallies.add (e :: r) h2 b2 w2 = (e.1, e.2.add b2 w2) :: r := by
          rw [Tallies.add, if_neg (by omega), if_pos heq]
        have hO1 : Tallies.add ((e.1, e.2.add b1 w1) :: r) h2 b2 w2 =
            (e.1, (e.2.add b1 w1).add b2 w2) :: r := by
          rw [Tallies.add, if_neg (by omega), if_pos heq]
        have hO2 : Tallies.add ((e.1, e.2.add b2 w2) :: r) h1 b1 w1 =
            (e.1, (e.2.add b2 w2).add b1 w1) :: r := by
          rw [Tallies.add, if_neg (by omega), if_pos hc]
        rw [hI, hI2, hO1, hO2, tallyAdd_comm (hvs e (List.mem_cons_self e r))]
      · have hlt : e.1 < h2 := by omega
        have hI : Tallies.add (e :: r) h1 b1 w1 = (e.1, e.2.add b1 w1) :: r := by
          rw [Tallies.add, if_neg (by omega), if_pos hc]
        have hI2 : Tallies.add (e :: r) h2 b2 w2 = e :: Tallies.add r h2 b2 w2 := by
          rw [Tallies.add, if_neg (by omega), if_neg (by omega)]
        rw [hI, hI2, Tallies.add, if_neg (by omega), if_neg (by omega),
          Tallies.add, if_neg (by omega), if_pos hc]
    · have hlt2 : e.1 < h2 := by omega
      have hI : Tallies.add (e :: r) h1 b1 w1 = e :: Tallies.add r h1 b1 w1 := by
        rw [Tallies.add, if_neg (by omega), if_neg (by omega)]
      have hI2 : Tallies.add (e :: r) h2 b2 w2 = e :: Tallies.add r h2 b2 w2 := by
        rw [Tallies.add, if_neg (by omega), if_neg (by omega)]
      rw [hI, hI2, Tallies.add, if_neg (by omega), if_neg (by omega),
        Tallies.add, if_neg (by omega), if_neg (by omega),
        ih hinvr hle b1 w1 b2 w2]

theorem talliesAdd_comm {ts : Tallies} (hinv : TalliesInvS ts)
    (h1 b1 w1 h2 b2 w2 : Nat) :
    Tallies.add (Tallies.add ts h1 b1 w1) h2 b2 w2 =
    Tallies.add (Tallies.add ts h2 b2 w2) h1 b1 w1 := by
  rcases Nat.le_total h1 h2 with hle | hle
  · exact talliesAdd_comm_le hinv hle b1 w1 b2 w2
  · exact (talliesAdd_comm_le hinv hle b2 w2 b1 w1).symm

theorem foldlAdd_perm {l1 l2 : List (Nat × Nat × Nat)} (hp : List.Perm l1 l2) :
    ∀ init : Tallies, TalliesInvS init →
      l1.foldl (fun ts e => Tallies.add ts e.1 e.2.1 e.2.2) init =
      l2.foldl (fun ts e => Tallies.add ts e.1 e.2.1 e.2.2) init := by
  induction hp with
  | nil => intro init _; rfl
  | cons x l ih =>
    intro init hinv
    simp only [List.foldl_cons]
    exact ih _ (talliesAdd_invS hinv x.1 x.2.1 x.2.2)
  | swap x y l =>
    intro init hinv
    simp only [List.foldl_cons]
    rw [talliesAdd_comm hinv y.1 y.2.1 y.2.2 x.1 x.2.1 x.2.2]
  | trans h12 h23 ih1 ih2 =>
    intro init hinv
    rw [ih1 init hinv, ih2 init hinv]

theorem fromIter_perm {l1 l2 : List (Nat × Nat × Nat)} (hp : List.Perm l1 l2) :
    Tallies.fromIter l1 = Tallies.fromIter l2 :=
  foldlAdd_perm hp [] ⟨rfl, fun e he => absurd he (by simp)⟩

/-! Lemmas about Tally::filter and Tallies::filter. -/

theorem mem_takeWhile_pred {α : Type} {p : α → Bool} :
    ∀ {l : List α} {a : α}, a ∈ l.takeWhile p → p a = true := by
  intro l
  induction l with
  | nil => intro a h; cases h
  | cons e r ih =>
    intro a h
    rw [List.takeWhile_cons] at h
    by_cases hp : p e
    · rw [if_pos hp] at h
      rcases List.mem_cons.mp h with h | h
      · rw [h]; exact hp
      · exact ih h
    · rw [if_neg hp] at h
      cases h

theorem mem_of_mem_takeWhile {α : Type} {p : α → Bool} :
    ∀ {l : List α} {a : α}, a ∈ l.takeWhile p → a ∈ l := by
  intro l
  induction l with
  | nil => intro a h; cases h
  | cons e r ih =>
    intro a h
    rw [List.takeWhile_cons] at h
    by_cases hp : p e
    · rw [if_pos hp] at h
      rcases List.mem_cons.mp h with h | h
      · rw [h]; exact List.mem_cons_self e r
      · exact List.mem_cons_of_mem e (ih h)
    · rw [if_neg hp] at h
      cases h

theorem takeWhile_eq_self_of_all {α : Type} {p : α → Bool} :
    ∀ {l : List α}, (∀ a ∈ l, p a = true) → l.takeWhile p = l := by
  intro l
  induction l with
  | nil => intro; rfl
  | cons e r ih =>
    intro h
    rw [List.takeWhile_cons, if_pos (h e (List.mem_cons_self e r))]
    rw [ih (fun a ha => h a (List.mem_cons_of_mem e ha))]

theorem filterMap_eq_self_of_all {α : Type} {f : α → Option α} :
    ∀ {l : List α}, (∀ a ∈ l, f a = some a) → l.filterMap f = l := by
  intro l
  induction l with
  | nil => intro; rfl
  | cons e r ih =>
    intro h
    rw [List.filterMap_cons, h e (List.mem_cons_self e r)]
    rw [ih (fun a ha => h a (List.mem_cons_of_mem e ha))]

theorem keySorted_filter {q : Nat × Nat → Bool} :
    ∀ {l : List (Nat × Nat)}, keySortedB l = true →
      keySortedB (l.filter q) = true := by
  intro l
  induction l with
  | nil => intro; rfl
  | cons e r ih =>
    intro hs
    rw [List.filter_cons]
    by_cases hq : q e
    · rw [if_pos hq]
      apply keySortedB_cons_of (ih (keySortedB_tail hs))
      intro e' he'
      exact keySortedB_head_lt hs e' (List.mem_filter.mp he').1
    · rw [if_neg hq]
      exact ih (keySortedB_tail hs)

theorem addEntry_append {b w : Nat} :
    ∀ {v : List (Nat × Nat)}, (∀ e ∈ v, e.1 < b) →
      addEntry v b w = v ++ [(b, w)] := by
  intro v
  induction v with
  | nil => intro; rfl
  | cons e r ih =>
    intro h
    have he := h e (List.mem_cons_self e r)
    rw [addEntry, if_neg (by omega), if_neg (by omega)]
    rw [ih (fun e' he' => h e' (List.mem_cons_of_mem e he'))]
    rfl

theorem extend_votes_append : ∀ {l : List (Nat × Nat)} {t : Tally},
    (∀ e ∈ l, ∀ e' ∈ t.votes, e'.1 < e.1) → keySortedB l = true →
    (t.extend l).votes = t.votes ++ l := by
  intro l
  induction l with
  | nil => intro t _ _; simp [Tally.extend]
  | cons e r ih =>
    intro t hlt hs
    rw [votes_extend_cons]
    have hadd : (t.add e.1 e.2).votes = t.votes ++ [e] := by
      rw [votes_add, addEntry_append (hlt e (List.mem_cons_self e r)), Prod.mk.eta]
    have hr : ((t.add e.1 e.2).extend r).votes = (t.add e.1 e.2).votes ++ r := by
      apply ih ?_ (keySortedB_tail hs)
      intro e2 he2 e' he'
      rw [hadd] at he'
      rcases List.mem_append.mp he' with h' | h'
      · exact lt_trans (hlt e (List.mem_cons_self e r) e' h')
          (keySortedB_head_lt hs e2 he2)
      · have : e' = e := by simpa using h'
        rw [this]
        exact keySortedB_head_lt hs e2 he2
    rw [hr, hadd, List.append_assoc]
    rfl

theorem tryFromIter_sorted_votes {l : List (Nat × Nat)}
    (hs : keySortedB l = true) {t : Tally}
    (h : Tally.tryFromIter l = some t) : t.votes = l := by
  cases l with
  | nil => cases h
  | cons e r =>
    rw [Tally.tryFromIter] at h
    have h2 := Option.some.inj h
    rw [← h2]
    have : ((Tally.new e.1 e.2).extend r).votes = (Tally.new e.1 e.2).votes ++ r := by
      apply extend_votes_append ?_ (keySortedB_tail hs)
      intro e2 he2 e' he'
      have : e' = (e.1, e.2) := by simpa [Tally.new] using he'
      rw [this]
      exact keySortedB_head_lt hs e2 he2
    rw [this]
    rfl

theorem tallyFilter_fix {t : Tally} {height bhash : Nat} {s : State} {t' : Tally}
    (hs : keySortedB t.votes = true)
    (hf : Tally.filterOpt t height bhash s = some (some t')) :
    Tally.filterOpt t' height bhash s = some (some t') := by
  rw [Tally.filterOpt] at hf
  split at hf
  · rename_i hall
    have htry := Option.some.inj hf
    have hkeptS : keySortedB (t.votes.filter
        (fun e => decide (s.findAncestor e.1 height = some (some bhash)))) = true :=
      keySorted_filter hs
    have hvotes : t'.votes = t.votes.filter
        (fun e => decide (s.findAncestor e.1 height = some (some bhash))) :=
      tryFromIter_sorted_votes hkeptS htry
    have hpred : ∀ e ∈ t'.votes,
        decide (s.findAncestor e.1 height = some (some bhash)) = true := by
      intro e he
      rw [hvotes] at he
      exact (List.mem_filter.mp he).2
    rw [Tally.filterOpt, if_pos ?_]
    · rw [List.filter_eq_self.mpr hpred, hvotes]
      exact congrArg some htry
    · apply List.all_eq_true.mpr
      intro e he
      have := hpred e he
      rw [decide_eq_true_iff] at this
      rw [this]
      rfl
  · cases hf

theorem talliesFilterOpt_def (ts : Tallies) (height bhash : Nat) (s : State) :
    Tallies.filterOpt ts height bhash s =
      if (ts.reverse.takeWhile (fun e => decide (height < e.1))).all
          (fun e => (Tally.filterOpt e.2 height bhash s).isSome) then
        some (((ts.reverse.takeWhile (fun e => decide (height < e.1))).filterMap
          (fun e => match Tally.filterOpt e.2 height bhash s with
            | some (some t') => some (e.1, t')
            | _ => Option.none)).reverse)
      else Option.none := rfl

theorem talliesFilter_mem {ts : Tallies} {height bhash : Nat} {s : State}
    {ts' : Tallies} (hf : Tallies.filterOpt ts height bhash s = some ts') :
    ∀ e ∈ ts', ∃ orig ∈ ts.reverse.takeWhile (fun e => decide (height < e.1)),
      Tally.filterOpt orig.2 height bhash s = some (some e.2) ∧ orig.1 = e.1 := by
  rw [talliesFilterOpt_def] at hf
  split at hf
  · have hts' := Option.some.inj hf
    intro e he
    rw [← hts', List.mem_reverse] at he
    rcases List.mem_filterMap.mp he with ⟨orig, ho, hmatch⟩
    cases hfo : Tally.filterOpt orig.2 height bhash s with
    | none => rw [hfo] at hmatch; cases hmatch
    | some o =>
      cases o with
      | none => rw [hfo] at hmatch; cases hmatch
      | some t' =>
        rw [hfo] at hmatch
        have hpair := Option.some.inj hmatch
        refine ⟨orig, ho, ?_, ?_⟩
        · rw [← hpair]
          exact hfo
        · rw [← hpair]
  · cases hf

theorem talliesFilter_sound {ts : Tallies} {height bhash : Nat} {s : State}
    {ts' : Tallies} (hf : Tallies.filterOpt ts height bhash s = some ts') :
    ∀ e ∈ ts', height < e.1 ∧ e.2.votes ≠ [] ∧
      ∀ v ∈ e.2.votes, s.findAncestor v.1 height = some (some bhash) := by
  intro e he
  rcases talliesFilter_mem hf e he with ⟨orig, ho, hfo, hkey⟩
  have hh : height < e.1 := by
    have := mem_takeWhile_pred ho
    rw [decide_eq_true_iff] at this
    omega
  rw [Tally.filterOpt] at hfo
  split at hfo
  · have htry := Option.some.inj hfo
    refine ⟨hh, (tallyInv_tryFromIter htry).2.1, ?_⟩
    intro v hv
    have hkey2 := keys_tryFromIter htry hv
    rcases List.mem_map.mp hkey2 with ⟨e2, he2, heq⟩
    have hp := (List.mem_filter.mp he2).2
    rw [decide_eq_true_iff] at hp
    rw [← heq]
    exact hp
  · cases hfo

theorem talliesFilter_entry {ts : Tallies} {height bhash : Nat} {s : State}
    {ts' : Tallies} (hvs : ∀ e ∈ ts, keySortedB e.2.votes = true)
    (hf : Tallies.filterOpt ts height bhash s = some ts') :
    ∀ e ∈ ts', Tally.filterOpt e.2 height bhash s = some (some e.2) := by
  intro e he
  rcases talliesFilter_mem hf e he with ⟨orig, ho, hfo, hkey⟩
  have hsorig : keySortedB orig.2.votes = true :=
    hvs orig (List.mem_reverse.mp (mem_of_mem_takeWhile ho))
  exact tallyFilter_fix hsorig hfo

theorem talliesFilter_idem {ts : Tallies} {height bhash : Nat} {s : State}
    {ts' : Tallies} (hvs : ∀ e ∈ ts, keySortedB e.2.votes = true)
    (hf : Tallies.filterOpt ts height bhash s = some ts') :
    Tallies.filterOpt ts' height bhash s = some ts' := by
  have hsound := talliesFilter_sound hf
  have hentry := talliesFilter_entry hvs hf
  have htw : ts'.reverse.takeWhile (fun e => decide (height < e.1)) =
      ts'.reverse := by
    apply takeWhile_eq_self_of_all
    intro a ha
    rw [decide_eq_true_iff]
    exact (hsound a (List.mem_reverse.mp ha)).1
  have hcond : (ts'.reverse.all
      (fun e => (Tally.filterOpt e.2 height bhash s).isSome)) = true := by
    apply List.all_eq_true.mpr
    intro e he
    rw [hentry e (List.mem_reverse.mp he)]
    rfl
  have hfm : ts'.reverse.filterMap
      (fun e => match Tally.filterOpt e.2 height bhash s with
        | some (some t') => some (e.1, t')
        | _ => Option.none) = ts'.reverse := by
    apply filterMap_eq_self_of_all
    intro a ha
    simp only [hentry a (List.mem_reverse.mp ha)]
  rw [talliesFilterOpt_def, htw, if_pos hcond, hfm, List.reverse_reverse]

/-! The Tally invariant holds for every reachable tally. -/

theorem reachable_tallyInv {t : Tally} (h : ReachableTally t) : TallyInv t := by
  induction h with
  | new b w => exact tallyInv_new b w
  | fromIter l t h => exact tallyInv_tryFromIter h
  | add t b w _ ih => exact tallyInv_add ih b w
  | extendBy t l _ ih => exact tallyInv_extend ih l
  | parents t s t' _ hp ih =>
    rw [Tally.parents] at hp
    cases hpp : Tally.parentPairs s t.votes with
    | none => simp only [hpp] at hp; cases hp
    | some l' =>
      simp only [hpp] at hp
      exact tallyInv_tryFromIter hp
  | filterKeep t h b s t' _ hf ih =>
    rw [Tally.filterOpt] at hf
    split at hf
    · exact tallyInv_tryFromIter (Option.some.inj hf)
    · cases hf

/-! Trailing-zero arithmetic for the skip-list index. -/

theorem tzAux_pow : ∀ (k m fuel : Nat), m % 2 = 1 → 2 ^ k * m ≤ fuel →
    tzAux fuel (2 ^ k * m) = k := by
  intro k
  induction k with
  | zero =>
    intro m fuel hm hle
    rw [pow_zero, Nat.one_mul] at hle ⊢
    cases fuel with
    | zero => omega
    | succ f => rw [tzAux, if_pos hm]
  | succ k ih =>
    intro m fuel hm hle
    have hx : 0 < 2 ^ k * m := Nat.mul_pos (Nat.pow_pos (by omega)) (by omega)
    have heq : 2 ^ (k + 1) * m = 2 * (2 ^ k * m) := by ring
    cases fuel with
    | zero => omega
    | succ f =>
      rw [tzAux, if_neg (by omega)]
      have hdiv : 2 ^ (k + 1) * m / 2 = 2 ^ k * m := by omega
      rw [hdiv, ih m f hm (by omega)]

theorem tzOdd : ∀ (fuel n : Nat), 0 < n → n ≤ fuel →
    ∃ m, m % 2 = 1 ∧ n = 2 ^ tzAux fuel n * m := by
  intro fuel
  induction fuel with
  | zero => intro n h1 h2; omega
  | succ f ih =>
    intro n h1 h2
    by_cases hodd : n % 2 = 1
    · refine ⟨n, hodd, ?_⟩
      rw [tzAux, if_pos hodd, pow_zero, Nat.one_mul]
    · have h3 : 0 < n / 2 := by omega
      have h4 : n / 2 ≤ f := by omega
      rcases ih (n / 2) h3 h4 with ⟨m, hm, heq⟩
      refine ⟨m, hm, ?_⟩
      rw [tzAux, if_neg hodd]
      set t := tzAux f (n / 2) with ht
      rw [pow_succ]
      have h5 : 2 ^ t * 2 * m = 2 * (2 ^ t * m) := by ring
      rw [h5]
      omega

theorem trailingZeros_pow_odd {k m : Nat} (hm : m % 2 = 1) :
    trailingZeros (2 ^ k * m) = k := by
  have hpos : 0 < 2 ^ k * m := Nat.mul_pos (Nat.pow_pos (by omega)) (by omega)
  rw [trailingZeros, if_neg (by omega)]
  exact tzAux_pow k m _ hm (Nat.le_refl _)

theorem trailingZeros_decomp {n : Nat} (hpos : 0 < n) :
    ∃ m, m % 2 = 1 ∧ n = 2 ^ trailingZeros n * m := by
  rw [trailingZeros, if_neg (by omega)]
  exact tzOdd n n hpos (Nat.le_refl n)

theorem sub_pow_tz {n : Nat} (hpos : 0 < n) {i : Nat}
    (hi : i < trailingZeros n) :
    0 < n - 2 ^ i ∧ trailingZeros (n - 2 ^ i) = i := by
  rcases trailingZeros_decomp hpos with ⟨m, hm, heq⟩
  set T := trailingZeros n with hT
  have hpow : 2 ^ T = 2 ^ i * 2 ^ (T - i) := by
    rw [← pow_add]
    congr 1
    omega
  obtain ⟨d, hd⟩ : ∃ d, T - i = d + 1 := ⟨T - i - 1, by omega⟩
  obtain ⟨y, hy⟩ : ∃ y, 2 ^ (T - i) * m = y + 1 := by
    refine ⟨2 ^ (T - i) * m - 1, ?_⟩
    have : 0 < 2 ^ (T - i) * m := Nat.mul_pos (Nat.pow_pos (by omega)) (by omega)
    omega
  have hyodd : y % 2 = 1 := by
    have h3 : 2 ^ (T - i) * m = 2 * (2 ^ d * m) := by
      rw [hd, pow_succ]
      ring
    omega
  have h4 : n - 2 ^ i = 2 ^ i * y := by
    have h5 : n = 2 ^ i * (2 ^ (T - i) * m) := by
      rw [heq, hpow]
      ring
    have h6 : n = 2 ^ i * y + 2 ^ i := by
      rw [h5, hy]
      ring
    omega
  constructor
  · have : 0 < 2 ^ i * y := Nat.mul_pos (Nat.pow_pos (by omega)) (by omega)
    omega
  · rw [h4]
    exact trailingZeros_pow_odd hyodd

/-! The skip-index construction of Vote::new. -/

theorem skipInv_parts {s : State} (hinv : skipInvB s = true) {h : Nat}
    {v : Vote} (hv : s.voteOf h = some v) :
    (v.seq_number = 0 → v.skip_idx = []) ∧
    (0 < v.seq_number →
      v.skip_idx.length = trailingZeros v.seq_number + 1) ∧
    (∀ i x, v.skip_idx.get? i = some x → ∃ v', s.voteOf x = some v' ∧
      v'.sender = v.sender ∧ v'.seq_number + 2 ^ i = v.seq_number) := by
  rcases Option.map_eq_some'.mp hv with ⟨e, hfind, he2⟩
  have hmem : e ∈ s.votes := List.mem_of_find?_eq_some hfind
  have hb := List.all_eq_true.mp hinv e hmem
  rw [he2, Bool.and_eq_true] at hb
  obtain ⟨hb1, hb2⟩ := hb
  refine ⟨?_, ?_, ?_⟩
  · intro h0
    rw [if_pos h0] at hb1
    exact List.isEmpty_iff.mp hb1
  · intro h0
    rw [if_neg (by omega)] at hb1
    exact of_decide_eq_true hb1
  · intro i x hx
    have hlen : i < v.skip_idx.length := by
      by_contra hc
      rw [List.get?_eq_none.mpr (by omega)] at hx
      cases hx
    have hbi := List.all_eq_true.mp hb2 i (List.mem_range.mpr hlen)
    simp only [hx] at hbi
    cases hvx : s.voteOf x with
    | none => simp only [hvx] at hbi; cases hbi
    | some v' =>
      simp only [hvx] at hbi
      have := of_decide_eq_true hbi
      exact ⟨v', rfl, this.1, this.2⟩

theorem skipFrom_spec {s : State} (hinv : skipInvB s = true) {sq snd : Nat}
    (hsq : 0 < sq) :
    ∀ (steps i : Nat) (acc : List Nat), i + steps = trailingZeros sq →
      acc.length = i + 1 →
      (∀ j x, acc.get? j = some x → ∃ v', s.voteOf x = some v' ∧
        v'.sender = snd ∧ v'.seq_number + 2 ^ j = sq) →
      ∃ res, skipFrom s steps acc i = some res ∧
        res.length = trailingZeros sq + 1 ∧
        res.get? 0 = acc.get? 0 ∧
        (∀ j x, res.get? j = some x → ∃ v', s.voteOf x = some v' ∧
          v'.sender = snd ∧ v'.seq_number + 2 ^ j = sq) := by
  intro steps
  induction steps with
  | zero =>
    intro i acc hiT hlen hpt
    exact ⟨acc, rfl, by omega, rfl, hpt⟩
  | succ st ih =>
    intro i acc hiT hlen hpt
    have hiTlt : i < trailingZeros sq := by omega
    have hacc : ∃ x, acc.get? i = some x := by
      cases hx : acc.get? i with
      | none =>
        rw [List.get?_eq_none] at hx
        omega
      | some x => exact ⟨x, rfl⟩
    rcases hacc with ⟨x, hx⟩
    rcases hpt i x hx with ⟨vi, hvi, hsnd, hseq⟩
    have hvipos : 0 < vi.seq_number := by
      rcases sub_pow_tz hsq hiTlt with ⟨hp, ht⟩
      omega
    have hvitz : trailingZeros vi.seq_number = i := by
      rcases sub_pow_tz hsq hiTlt with ⟨hp, ht⟩
      have : vi.seq_number = sq - 2 ^ i := by omega
      rw [this, ht]
    rcases skipInv_parts hinv hvi with ⟨_, hlen2, hpt2⟩
    have hleni : vi.skip_idx.length = i + 1 := by
      rw [hlen2 hvipos, hvitz]
    have hski : ∃ y, vi.skip_idx.get? i = some y := by
      cases hy : vi.skip_idx.get? i with
      | none =>
        rw [List.get?_eq_none] at hy
        omega
      | some y => exact ⟨y, rfl⟩
    rcases hski with ⟨y, hy⟩
    rcases hpt2 i y hy with ⟨vy, hvy, hvysnd, hvyseq⟩
    have hstep : skipFrom s (st + 1) acc i = skipFrom s st (acc ++ [y]) (i + 1) := by
      rw [skipFrom]
      simp only [hx, hvi, hy]
    have hnewpt : ∀ j z, (acc ++ [y]).get? j = some z →
        ∃ v', s.voteOf z = some v' ∧ v'.sender = snd ∧
          v'.seq_number + 2 ^ j = sq := by
      intro j z hz
      by_cases hj : j < acc.length
      · rw [List.get?_append hj] at hz
        exact hpt j z hz
      · have hjlen : j = acc.length := by
          by_contra hc
          have : (acc ++ [y]).length ≤ j := by
            rw [List.length_append]
            simp only [List.length_singleton]
            omega
          rw [List.get?_eq_none.mpr this] at hz
          cases hz
        subst hjlen
        rw [List.get?_concat_length] at hz
        have hzy := Option.some.inj hz
        refine ⟨vy, by rw [← hzy]; exact hvy, by rw [hvysnd, hsnd], ?_⟩
        have hpow : 2 ^ acc.length = 2 ^ i * 2 := by
          rw [hlen]
          rw [pow_succ]
        have h2i : vy.seq_number + 2 ^ i = vi.seq_number := hvyseq
        omega
    rcases ih (i + 1) (acc ++ [y]) (by omega)
      (by rw [List.length_append]; simp only [List.length_singleton]; omega)
      hnewpt with ⟨res, hres, hreslen, hres0, hrespt⟩
    refine ⟨res, by rw [hstep]; exact hres, hreslen, ?_, hrespt⟩
    rw [hres0, List.get?_append (by omega)]

/-! The claims. Each theorem below settles one claim of the specification
against the definitions above. -/

/-- C1 is false as stated: on the fork state, find_decided returns (1, 2),
yet the weight of the votes whose block has 2 as ancestor at height 1 is
exactly half the total, not more. The returned pair is only the next-height
block through which the decided sub-tree is entered. -/
theorem find_decided_majority_cex :
    Tallies.findDecided exForkTs exForkState = some (some (1, 2)) ∧
    ¬(Tallies.weightSum exForkTs < 2 * repWeight exForkState exForkTs 1 2) :=
  ⟨by decide, by decide⟩

/-- C1 (amended): when find_decided returns (h, b) with 1 ≤ h on a
well-formed state and height-sorted tallies of known blocks, the majority
holds one level down: the ancestor a of b at height h - 1 carries strictly
more than half of the total represented weight in its sub-tree. -/
theorem find_decided_majority (s : State) (ts : Tallies) (h b : Nat)
    (hwf : wfStateB s = true) (hwt : wfTalliesB s ts = true)
    (hres : Tallies.findDecided ts s = some (some (h, b))) (hh : 1 ≤ h) :
    ∃ a, s.findAncestor b (h - 1) = some (some a) ∧
      Tallies.weightSum ts < 2 * repWeight s ts (h - 1) a := by
  have hne : ts ≠ [] := by
    intro hnil
    subst hnil
    have hd : Tallies.findDecided [] s = some Option.none :=
      findDecided_some_none_iff.mpr rfl
    rw [hd] at hres
    cases Option.some.inj hres
  rcases findDecided_spec hwf hwt hne with ⟨h2, b2, hres2, hmaj⟩
  rw [hres] at hres2
  have hhb := Option.some.inj (Option.some.inj hres2)
  have hh2 : h2 = h := (congrArg Prod.fst hhb).symm
  have hb2 : b2 = b := (congrArg Prod.snd hhb).symm
  subst hh2
  subst hb2
  exact hmaj hh

theorem find_decided_majority_w :
    Tallies.weightSum exChainTs < 2 * repWeight exChainState exChainTs 1 1 := by
  rcases find_decided_majority exChainState exChainTs 2 2 (by decide) (by decide)
      (by decide) (by omega) with ⟨a, ha, hmaj⟩
  have h0 : exChainState.findAncestor 2 (2 - 1) = some (some 1) := by decide
  rw [h0] at ha
  have ha1 : a = 1 := (Option.some.inj (Option.some.inj ha)).symm
  subst ha1
  exact hmaj

/-- C2: a vote built by Vote::new whose sender slot is Correct(prev), with
seq_number s > 0, prev the sender's vote with sequence number s - 1, and
every stored vote satisfying the skip-list invariant, gets a skip_idx of
length trailing_zeros(s) + 1 whose entry 0 is prev and whose entry i names
the sender's vote with sequence number s - 2^i; a sender slot of None
yields an empty skip_idx. -/
theorem vote_new_skip_idx (wv : WireVote) (fc : Option Nat) (s : State)
    (v : Vote) (vals : Option (List Nat)) (hinv : skipInvB s = true)
    (hnew : Vote.newOpt wv fc s = some (v, vals)) :
    (∀ prev pv, wv.panorama.get? wv.sender = some (Observation.Correct prev) →
      0 < wv.seq_number → s.voteOf prev = some pv → pv.sender = wv.sender →
      pv.seq_number + 1 = wv.seq_number →
      v.skip_idx.length = trailingZeros wv.seq_number + 1 ∧
      v.skip_idx.get? 0 = some prev ∧
      ∀ j x, v.skip_idx.get? j = some x → ∃ pvj, s.voteOf x = some pvj ∧
        pvj.sender = wv.sender ∧ pvj.seq_number + 2 ^ j = wv.seq_number) ∧
    (wv.panorama.get? wv.sender = some Observation.None → v.skip_idx = []) := by
  simp only [Vote.newOpt] at hnew
  cases hblk : (if wv.values.isSome then some wv.hash else fc) with
  | none =>
    rw [hblk] at hnew
    cases hnew
  | some blk =>
    rw [hblk] at hnew
    constructor
    · intro prev pv hpan hpos hpv hsnd hseq
      simp only [hpan, Observation.correct] at hnew
      cases hsk : skipFrom s (trailingZeros wv.seq_number) [prev] 0 with
      | none =>
        simp only [hsk] at hnew
        cases hnew
      | some sk =>
        simp only [hsk] at hnew
        have hp := Option.some.inj hnew
        rw [Prod.mk.injEq] at hp
        have hskidx : v.skip_idx = sk := by
          rw [← hp.1]
        have hinit : ∀ j x, ([prev] : List Nat).get? j = some x →
            ∃ pvj, s.voteOf x = some pvj ∧ pvj.sender = wv.sender ∧
              pvj.seq_number + 2 ^ j = wv.seq_number := by
          intro j x hj
          cases j with
          | zero =>
            have hx : prev = x := Option.some.inj hj
            refine ⟨pv, by rw [← hx]; exact hpv, hsnd, ?_⟩
            rw [pow_zero]
            omega
          | succ j2 =>
            have hn : ([prev] : List Nat).get? (j2 + 1) = Option.none := rfl
            rw [hn] at hj
            cases hj
        rcases skipFrom_spec hinv hpos (trailingZeros wv.seq_number) 0 [prev]
            (by omega) rfl hinit with ⟨res, hres, hlen, h0, hpt⟩
        rw [hsk] at hres
        have hrs : sk = res := Option.some.inj hres
        subst hrs
        refine ⟨by rw [hskidx]; exact hlen, by rw [hskidx, h0]; rfl, ?_⟩
        intro j x hj
        rw [hskidx] at hj
        exact hpt j x hj
    · intro hpan
      simp only [hpan, Observation.correct] at hnew
      have hp := Option.some.inj hnew
      rw [Prod.mk.injEq] at hp
      rw [← hp.1]

theorem vote_new_skip_idx_w :
    exNewVote.skip_idx.length = trailingZeros exWire.seq_number + 1 ∧
    exNewVote.skip_idx.get? 0 = some 11 := by
  have h := (vote_new_skip_idx exWire Option.none exVoteState exNewVote
      (some []) (by decide) (by decide)).1 11 exPrevVote (by decide) (by decide)
      (by decide) (by decide) (by decide)
  exact ⟨h.1, h.2.1⟩

/-- C3: every tally reachable through new, try_from_iter, add, extend,
parents and filter keeps its cached maximum consistent: max_w is the
greatest weight among the votes and max_bhash the greatest hash among the
entries achieving that weight. -/
theorem tally_max_consistent (t : Tally) (h : ReachableTally t) :
    (t.max_bhash, t.max_w) ∈ t.votes ∧ (∀ e ∈ t.votes, e.2 ≤ t.max_w) ∧
      ∀ e ∈ t.votes, e.2 = t.max_w → e.1 ≤ t.max_bhash :=
  (reachable_tallyInv h).2.2

theorem tally_max_consistent_w :
    ((Tally.new 5 7).max_bhash, (Tally.new 5 7).max_w) ∈ (Tally.new 5 7).votes :=
  (tally_max_consistent (Tally.new 5 7) (ReachableTally.new 5 7)).1

/-- C4: pushing a tally whose entries are all blocks at a common height
hl > 0 down one level with Tally::parents conserves the total weight. -/
theorem tally_parents_conserves_weight (s : State) (t : Tally) (hl : Nat)
    (hwf : wfStateB s = true) (hne : t.votes ≠ [])
    (hkeys : ∀ e ∈ t.votes, ∃ blk, s.blockOf e.1 = some blk ∧ blk.height = hl)
    (hpos : 0 < hl) :
    ∃ t2, t.parents s = some t2 ∧ t2.weight = t.weight :=
  parents_weight hwf hne hkeys hpos

theorem tally_parents_conserves_weight_w :
    ∃ t2, (Tally.new 2 100).parents exChainState = some t2 ∧
      t2.weight = (Tally.new 2 100).weight := by
  refine tally_parents_conserves_weight exChainState (Tally.new 2 100) 2
    (by decide) (by decide) ?_ (by decide)
  intro e he
  have he2 : e = (2, 100) := List.mem_singleton.mp he
  subst he2
  exact ⟨{ height := 2, parent := some 1 }, by decide, by decide⟩

/-- C5: every entry of a successful Tallies::filter at (height, bhash) sits
at a height above the cut, is a non-empty tally, and holds only votes whose
block has bhash as its ancestor at the cut height. -/
theorem tallies_filter_correct (ts : Tallies) (height bhash : Nat) (s : State)
    (ts2 : Tallies) (e : Nat × Tally)
    (hf : Tallies.filterOpt ts height bhash s = some ts2) (he : e ∈ ts2) :
    height < e.1 ∧ e.2.votes ≠ [] ∧
      ∀ w ∈ e.2.votes, s.findAncestor w.1 height = some (some bhash) :=
  talliesFilter_sound hf e he

theorem tallies_filter_correct_w :
    0 < exFilteredEntry.1 ∧ exFilteredEntry.2.votes ≠ [] := by
  have h := tallies_filter_correct exForkTs 0 0 exForkState exFiltered
      exFilteredEntry (by decide) (by decide)
  exact ⟨h.1, h.2.1⟩

/-- C6: find_decided does not depend on the insertion order of the votes:
permuting the (height, hash, weight) triples fed to from_iter leaves its
output unchanged on every state. -/
theorem find_decided_insertion_order (l1 l2 : List (Nat × Nat × Nat))
    (s : State) (hp : List.Perm l1 l2) :
    Tallies.findDecided (Tallies.fromIter l1) s =
      Tallies.findDecided (Tallies.fromIter l2) s := by
  rw [fromIter_perm hp]

theorem find_decided_insertion_order_w :
    Tallies.findDecided (Tallies.fromIter [(1, 1, 50), (1, 2, 50)]) exForkState =
      Tallies.findDecided (Tallies.fromIter [(1, 2, 50), (1, 1, 50)]) exForkState :=
  find_decided_insertion_order [(1, 1, 50), (1, 2, 50)] [(1, 2, 50), (1, 1, 50)]
    exForkState (List.Perm.swap (1, 2, 50) (1, 1, 50) [])

/-- C7 is false as stated: a non-empty Tallies naming a block hash the
state does not know makes find_decided hit the panic inside State::block
(the outer none) instead of returning a result. -/
theorem find_decided_fault_cex :
    exBadTs ≠ [] ∧ Tallies.findDecided exBadTs exChainState = Option.none :=
  ⟨by decide, by decide⟩

/-- C7 (amended): find_decided returns the inner absent value exactly on an
empty Tallies, and on a well-formed state with height-sorted tallies of
known blocks a non-empty Tallies always yields some (h, b), never a
fault. -/
theorem find_decided_none_iff_empty (s : State) (ts : Tallies) :
    (Tallies.findDecided ts s = some Option.none ↔ ts = []) ∧
    (wfStateB s = true → wfTalliesB s ts = true → ts ≠ [] →
      ∃ h b, Tallies.findDecided ts s = some (some (h, b))) := by
  refine ⟨findDecided_some_none_iff, fun hwf hwt hne => ?_⟩
  rcases findDecided_spec hwf hwt hne with ⟨h, b, hres, hmaj⟩
  exact ⟨h, b, hres⟩

theorem find_decided_none_iff_empty_w :
    Tallies.findDecided [] exForkState = some Option.none ∧
    ∃ h b, Tallies.findDecided exForkTs exForkState = some (some (h, b)) :=
  ⟨(find_decided_none_iff_empty exForkState []).1.mpr rfl,
    (find_decided_none_iff_empty exForkState exForkTs).2 (by decide) (by decide)
      (by decide)⟩

/-- C8: Panorama::is_empty holds exactly when no entry is a Correct
observation; in particular an all-Faulty panorama is empty, the same as an
all-None one. -/
theorem panorama_is_empty_no_correct (p : Panorama) :
    (Panorama.is_empty p = true ↔ ∀ o ∈ p, ∀ h, o ≠ Observation.Correct h) ∧
    (∀ n, Panorama.is_empty (List.replicate n Observation.Faulty) = true) ∧
    (∀ n, Panorama.is_empty (List.replicate n Observation.None) = true) := by
  have hc : ∀ o : Observation, Observation.is_correct o = false ↔
      ∀ h, o ≠ Observation.Correct h := by
    intro o
    cases o with
    | None => simp [Observation.is_correct]
    | Correct h => simp [Observation.is_correct]
    | Faulty => simp [Observation.is_correct]
  refine ⟨?_, ?_, ?_⟩
  · rw [Panorama.is_empty, Bool.not_eq_true', List.any_eq_false]
    simp only [Bool.not_eq_true]
    constructor
    · intro hall o ho
      exact (hc o).mp (hall o ho)
    · intro hall o ho
      exact (hc o).mpr (hall o ho)
  · intro n
    rw [Panorama.is_empty, Bool.not_eq_true', List.any_eq_false]
    simp only [Bool.not_eq_true]
    intro o ho
    rw [List.eq_of_mem_replicate ho]
    rfl
  · intro n
    rw [Panorama.is_empty, Bool.not_eq_true', List.any_eq_false]
    simp only [Bool.not_eq_true]
    intro o ho
    rw [List.eq_of_mem_replicate ho]
    rfl

/-- C9: Tallies::filter is idempotent: filtering a successful filter result
again with the same cut returns it unchanged (the votes of each tally are
sorted by block hash, as BTreeMap iteration yields them). -/
theorem tallies_filter_idempotent (ts : Tallies) (height bhash : Nat)
    (s : State) (ts2 : Tallies)
    (hvs : ∀ e ∈ ts, keySortedB e.2.votes = true)
    (hf : Tallies.filterOpt ts height bhash s = some ts2) :
    Tallies.filterOpt ts2 height bhash s = some ts2 :=
  talliesFilter_idem hvs hf

theorem tallies_filter_idempotent_w :
    Tallies.filterOpt exFiltered 0 0 exForkState = some exFiltered :=
  tallies_filter_idempotent exForkTs 0 0 exForkState exFiltered (by decide)
    (by decide)

/-- C10: a decision (h, b) of find_decided on height-sorted tallies never
names a height above all recorded votes: h is at most the largest height
present. -/
theorem find_decided_height_bound (s : State) (ts : Tallies) (h b : Nat)
    (hs : keySortedB ts = true)
    (hres : Tallies.findDecided ts s = some (some (h, b))) :
    ∃ maxh, Tallies.maxKey ts = some maxh ∧ h ≤ maxh ∧
      ∀ e ∈ ts, e.1 ≤ maxh := by
  rcases findDecided_height_le hres with ⟨maxh, hmk, hle⟩
  exact ⟨maxh, hmk, hle, maxKey_le hs hmk⟩

theorem find_decided_height_bound_w :
    ∃ maxh, Tallies.maxKey exChainTs = some maxh ∧ 2 ≤ maxh ∧
      ∀ e ∈ exChainTs, e.1 ≤ maxh :=
  find_decided_height_bound exChainState exChainTs 2 2 (by decide) (by decide)
